import Mathlib

/-!
Verification development for the Lexica ranking engine
(`lexica/backend/app/{semantic,index_bm25,graph,rerank}.py`).

Python floats are modelled by exact arithmetic: `ℚ` wherever the source only
adds, multiplies and divides, and `ℝ` where the source calls `math.log`,
`math.exp` or `numpy.linalg.norm` (square roots).  Python dicts are modelled
by association lists (unique keys, insertion order) or by lookup functions;
`numpy` arrays by `List`/`Fin n → _` vectors.  File I/O and JSON parsing are
outside the embedding: every function takes the parsed artifact it would have
read from disk.
-/

namespace Lexica

/-! ### Embedding store: `semantic.py` -/

/-- Case-folded character trigrams of a text, mirroring `_char_trigrams`:
the text is lowercased, padded with one boundary space on each side, and
scanned with a window of width 3.  A string of length `L` yields `L`
trigrams (padded length `L + 2`), in particular the empty string yields none. -/
def charTrigrams (text : String) : List (List Char) :=
  let s : List Char := ' ' :: (text.toList.map Char.toLower) ++ [' ']
  (List.range (s.length - 2)).map (fun i => (s.drop i).take 3)

/-- Bucket of a trigram under the (abstract) string hash `h`, mirroring
`(hash(tri) % dims + dims) % dims`.  `Int.emod` agrees with Python `%` for a
positive modulus, and the double mod lands in `[0, dims)`. -/
def hashBucket (h : List Char → ℤ) (dims : ℕ) (tri : List Char) : ℤ :=
  ((h tri) % (dims : ℤ) + (dims : ℤ)) % (dims : ℤ)

/-- Raw bucket counts of `_embed` before normalization: component `i` counts
the trigrams hashed to bucket `i`. -/
def embedCounts (h : List Char → ℤ) (dims : ℕ) (text : String) : List ℕ :=
  (List.range dims).map
    (fun i : ℕ => ((charTrigrams text).filter (fun t => hashBucket h dims t = (i : ℤ))).length)

/-- Squared L2 norm of a real vector. -/
def sqNorm (v : List ℝ) : ℝ := (v.map (fun x => x * x)).sum

/-- L2 norm, as computed by `np.linalg.norm`. -/
noncomputable def l2norm (v : List ℝ) : ℝ := Real.sqrt (sqNorm v)

/-- The embedding `_embed`: trigram bucket counts, L2-normalized when the norm
is positive and left untouched (all zero) otherwise. -/
noncomputable def embedVec (h : List Char → ℤ) (dims : ℕ) (text : String) : List ℝ :=
  if 0 < l2norm ((embedCounts h dims text).map (fun n : ℕ => (n : ℝ))) then
    ((embedCounts h dims text).map (fun n : ℕ => (n : ℝ))).map
      (fun x => x / l2norm ((embedCounts h dims text).map (fun n : ℕ => (n : ℝ))))
  else (embedCounts h dims text).map (fun n : ℕ => (n : ℝ))

/-- Dot product of two vectors, mirroring `mat @ qv` row-wise. -/
def dotList (u v : List ℝ) : ℝ := (List.zipWith (fun a b => a * b) u v).sum

/-- A built embedding store (`vecs.npz` + `vec_meta.json`): the declared
dimension and the `(id, vector)` rows. -/
structure VecStore where
  dims : ℕ
  entries : List (ℤ × List ℝ)

/-- The query vector used by `dense_search`: the source embeds the query at the
dimension of the stored matrix (`_embed(query, mat.shape[1])`), never at an
independently chosen dimension. -/
noncomputable def denseQueryVec (h : List Char → ℤ) (st : VecStore) (query : String) :
    List ℝ :=
  embedVec h st.dims query

/-- `dense_search`: score every stored row by dot product with the query vector,
sort descending and keep the first `topk`.  (`np.argsort(-sims)` sorts all
row indices by descending similarity; metadata join fields are dropped here as
they carry no logic.)  No similarity threshold is applied anywhere. -/
noncomputable def denseSearch (h : List Char → ℤ) (st : VecStore) (query : String)
    (topk : ℕ) : List (ℤ × ℝ) :=
  let qv := denseQueryVec h st query
  let sims := st.entries.map (fun e => (e.1, dotList e.2 qv))
  (sims.insertionSort (fun a b => b.2 ≤ a.2)).take topk

/-! ### Lexical index: `index_bm25.py`

A corpus row is `(doc_id, tokens)`: the upstream tokenizer (`tokenize`, pure
string processing shared by build and search) is treated as having already run,
so `tokens = tokenize(row["text"])`; `build_bm25` consumes nothing else of a
row.  Dictionaries keyed by doc id or term are association lists built in
source order. -/

/-- One `postings[term][doc] += tf` update: bump the count of `d` if present,
else append `(d, tf)` (Python dicts append new keys at the end). -/
def bumpPosting (pl : List (ℤ × ℕ)) (d : ℤ) (tf : ℕ) : List (ℤ × ℕ) :=
  if pl.any (fun e => e.1 = d) then
    pl.map (fun e => if e.1 = d then (e.1, e.2 + tf) else e)
  else pl ++ [(d, tf)]

/-- The postings list `build_bm25` accumulates for one term: fold over the rows,
adding `count term tokens` occurrences for each row containing the term. -/
def postingsFor (term : String) (rows : List (ℤ × List String)) : List (ℤ × ℕ) :=
  rows.foldl
    (fun pl row => if row.2.count term = 0 then pl else bumpPosting pl row.1 (row.2.count term))
    []

/-- Document frequency of a term at build time: the number of keys of its
postings list. -/
def dfOf (term : String) (rows : List (ℤ × List String)) : ℕ :=
  (postingsFor term rows).length

/-- Corpus size `N`: `docs` is incremented once per parsed row. -/
def docCount (rows : List (ℤ × List String)) : ℕ := rows.length

/-- The idf computed at build time:
`math.log((N - df + 0.5) / (df + 0.5) + 1.0)` over `ℝ`. -/
noncomputable def idfBuild (rows : List (ℤ × List String)) (term : String) : ℝ :=
  Real.log ((((docCount rows : ℝ) - (dfOf term rows : ℝ) + 1/2) / ((dfOf term rows : ℝ) + 1/2)) + 1)

/-- The vocabulary in first-encounter order, and the `idf.json` artifact. -/
def termsOf (rows : List (ℤ × List String)) : List String :=
  (rows.flatMap (fun r => r.2)).dedup

/-- The `idf.json` artifact: idf per indexed term. -/
noncomputable def idfArtifact (rows : List (ℤ × List String)) : List (String × ℝ) :=
  (termsOf rows).map (fun t => (t, idfBuild rows t))

/-- One `doclen[doc_id] = len` store with dict overwrite semantics. -/
def setDoclen (dl : List (ℤ × ℕ)) (d : ℤ) (n : ℕ) : List (ℤ × ℕ) :=
  if dl.any (fun e => e.1 = d) then dl.map (fun e => if e.1 = d then (e.1, n) else e)
  else dl ++ [(d, n)]

/-- The `doclen.json` artifact: `doclen[doc_id] = sum(cnt.values())`, which is
the token count of the row (`0` for rows with no tokens). -/
def doclenArtifact (rows : List (ℤ × List String)) : List (ℤ × ℕ) :=
  rows.foldl (fun dl row => setDoclen dl row.1 row.2.length) []

/-- The `stats.json` artifact: term count, doc count, average doc length
(`sum(doclen.values()) / max(1, len(doclen))`), `k1` and `b` — recomputed
from the rows on every build. -/
def statsArtifact (rows : List (ℤ × List String)) (k1 b : ℚ) : ℕ × ℕ × ℚ × ℚ × ℚ :=
  ((termsOf rows).length, docCount rows,
    (((doclenArtifact rows).map (fun e => (e.2 : ℚ))).sum
      / max 1 ((doclenArtifact rows).length : ℚ)), k1, b)

/-! `bm25_search` over the loaded artifacts.  The artifacts are parameters
(`index` as term-keyed postings, `idf` and `doclen` as lookup functions,
`avgLen`, `K1`, `B` from `stats.json`), and the query is already tokenized. -/

/-- Postings list of a term in the loaded index (`index.get(t)`), empty when
the term is absent. -/
def plistOf (index : List (String × List (ℤ × ℕ))) (t : String) : List (ℤ × ℕ) :=
  ((index.find? (fun e => e.1 = t)).map (fun e => e.2)).getD []

/-- BM25 contribution of one posting entry `(doc, tf)` for a term of weight `w`:
`w * tf * (K1 + 1) / max(1e-9, tf + K1 * (1 - B + B * dl / max(1.0, avg_len)))`. -/
def bm25Term (w : ℚ) (tf : ℕ) (dl : ℕ) (avgLen K1 B : ℚ) : ℚ :=
  w * ((tf * (K1 + 1)) / max (1/1000000000) (tf + K1 * (1 - B + B * ((dl : ℚ) / max 1 avgLen))))

/-- Accumulated BM25 score of a document: sum over the query terms (duplicates
included, as in the source loop) of the term's contributions; terms with
`idf <= 0` or no postings contribute nothing. -/
def bm25Scores (index : List (String × List (ℤ × ℕ))) (idf : String → ℚ)
    (doclen : ℤ → ℕ) (avgLen K1 B : ℚ) (qTerms : List String) (d : ℤ) : ℚ :=
  (qTerms.map (fun t =>
    if 0 < idf t then
      (((plistOf index t).filter (fun e => e.1 = d)).map
        (fun e => bm25Term (idf t) e.2 (doclen e.1) avgLen K1 B)).sum
    else 0)).sum

/-- The members of the CPython set `seen_docs`: every doc id occurring in a
postings list of a query term with positive idf, listed here in first-seen
order.  The set's actual iteration sequence is an implementation-defined
permutation of these (CPython hash-table slot order, which for sparse id sets
is not ascending id order: `{5, 1000}` has table size 8, `1000 & 7 = 0`,
`5 & 7 = 5`, so it iterates `[1000, 5]`); `bm25RankedFrom` therefore receives
the iteration sequence explicitly. -/
def seenDocs (index : List (String × List (ℤ × ℕ))) (idf : String → ℚ)
    (qTerms : List String) : List ℤ :=
  (qTerms.flatMap (fun t => if 0 < idf t then (plistOf index t).map (fun e => e.1) else [])).dedup

/-- `bm25_search` ranking applied to the iteration sequence `seen` of the
`seen_docs` set: `sorted(seen_docs, key=lambda d: scores[d], reverse=True)[:topk]`.
Python's `sorted` is stable and `reverse=True` keeps equal keys in iteration
order; a stable insertion sort by descending score over the iteration sequence
models it exactly. -/
def bm25RankedFrom (index : List (String × List (ℤ × ℕ))) (idf : String → ℚ)
    (doclen : ℤ → ℕ) (avgLen K1 B : ℚ) (qTerms : List String) (seen : List ℤ)
    (topk : ℕ) : List ℤ :=
  (seen.insertionSort
    (fun a b => bm25Scores index idf doclen avgLen K1 B qTerms b
      ≤ bm25Scores index idf doclen avgLen K1 B qTerms a)).take topk

/-- `bm25_search` ranking with the canonical first-seen enumeration of the
set's members standing in for the implementation-defined iteration sequence:
adequate for the order-independent facts (length, membership), while
order-sensitive facts are stated over `bm25RankedFrom` for an arbitrary
iteration sequence. -/
def bm25Ranked (index : List (String × List (ℤ × ℕ))) (idf : String → ℚ)
    (doclen : ℤ → ℕ) (avgLen K1 B : ℚ) (qTerms : List String) (topk : ℕ) : List ℤ :=
  bm25RankedFrom index idf doclen avgLen K1 B qTerms (seenDocs index idf qTerms) topk

/-! ### Message graph: `build_edges` in `graph.py` (reply edges) -/

/-- A parsed corpus row as `build_edges` reads it: message id, conversation id
and timestamp string (`r.get("ts") or ""` makes the sort key a total string;
ISO-8601 `Z` timestamps compare chronologically as strings). -/
structure GRow where
  msg : ℤ
  conv : String
  ts : String
deriving DecidableEq

/-- Edge record of `edges.jsonl`. -/
structure GEdge where
  src : ℤ
  dst : ℤ
  w : ℚ
  type : String
deriving DecidableEq

/-- Conversation ids in first-appearance order (the key order of the
`defaultdict` built by appending rows). -/
def convIds (rows : List GRow) : List String := (rows.map (fun r => r.conv)).dedup

/-- The rows of one conversation, in original order (`by_conv[conv_id]`). -/
def convRows (rows : List GRow) (c : String) : List GRow :=
  rows.filter (fun r => r.conv = c)

/-- A conversation sorted by timestamp ascending — `lst.sort(key=ts)` is a
stable sort, modelled by a stable insertion sort on the `ts` key. -/
def convSorted (rows : List GRow) (c : String) : List GRow :=
  (convRows rows c).insertionSort (fun a b => a.ts ≤ b.ts)

/-- Consecutive pairs of a list: `(lst[i], lst[i+1])` for `i < len - 1`. -/
def consecPairs {α : Type} (l : List α) : List (α × α) := l.zip l.tail

/-- Reply edges of one conversation: one weight-2.0 edge per consecutive pair
of the timestamp-sorted conversation. -/
def replyEdgesOf (rows : List GRow) (c : String) : List GEdge :=
  (consecPairs (convSorted rows c)).map (fun p => ⟨p.1.msg, p.2.msg, 2, "reply"⟩)

/-- All reply edges emitted by `build_edges` (the same-topic pass appends
separately and emits only edges of type `"same_topic"`). -/
def replyEdges (rows : List GRow) : List GEdge :=
  (convIds rows).flatMap (fun c => replyEdgesOf rows c)

/-- Conversation of a message id, looked up in the rows. -/
def convOf (rows : List GRow) (m : ℤ) : Option String :=
  (rows.find? (fun r => r.msg = m)).map (fun r => r.conv)

/-- Timestamp of a message id, looked up in the rows. -/
def tsOf (rows : List GRow) (m : ℤ) : Option String :=
  (rows.find? (fun r => r.msg = m)).map (fun r => r.ts)

/-! ### Query-biased mini PPR and hybrid fusion: `rerank.py`

`_mini_ppr` only adds, multiplies and divides, so it is embedded over an
arbitrary linear ordered field (instantiated at `ℝ` inside the fusion pipeline
and at `ℚ` for concrete evaluation). -/

/-- Index of a message in the candidate list (`idx = {msg: k for k, msg in
enumerate(candidate_ids)}`; for duplicate-free candidates first and last
occurrence agree). -/
def idxOf (cand : List ℤ) (m : ℤ) : Option ℕ :=
  match cand with
  | [] => none
  | a :: rest => if a = m then some 0 else (idxOf rest m).map (fun k => k + 1)

variable {K : Type} [LinearOrderedField K]

/-- The rows/cols/vals triples `_mini_ppr` collects: one `(row, col, w)` per
edge with both endpoints in the candidate set, where `row` indexes the
destination and `col` the source. -/
def pprRestricted (cand : List ℤ) (edges : List (ℤ × ℤ × K)) : List (ℕ × ℕ × K) :=
  edges.filterMap (fun e =>
    match idxOf cand e.1, idxOf cand e.2.1 with
    | some j, some i => some (i, j, e.2.2)
    | _, _ => none)

/-- Total outgoing weight collected per source column (`col_w`). -/
def pprColW (restr : List (ℕ × ℕ × K)) (j : ℕ) : K :=
  ((restr.filter (fun t => t.2.1 = j)).map (fun t => t.2.2)).sum

/-- Column normalization `vals /= np.take(col_w, cols)` after
`col_w[col_w == 0.0] = 1.0`: each value is divided by its column's total
outgoing weight, with divisor 1 for zero columns. -/
def pprNormVals (restr : List (ℕ × ℕ × K)) : List (ℕ × ℕ × K) :=
  restr.map (fun t =>
    (t.1, t.2.1, t.2.2 / (if pprColW restr t.2.1 = 0 then 1 else pprColW restr t.2.1)))

/-- The update `Ar = np.zeros(N); Ar[A[0]] += A[2] * r[A[1]]`.  NumPy
fancy-index `+=` is read-add-scatter, not accumulation: with duplicated row
indices the scatter keeps the last write, so component `i` ends up as
`val_k * r[col_k]` for the LAST triple `k` with row `i` (on top of the zero
initialization), not as the sum over all such triples. -/
def pprApplyA (n : ℕ) (nv : List (ℕ × ℕ × K)) (r : List K) : List K :=
  (List.range n).map (fun i =>
    match nv.reverse.find? (fun t => t.1 = i) with
    | some t => t.2.2 * r.getD t.2.1 0
    | none => 0)

/-- One iteration `r = alpha * v + (1 - alpha) * Ar`. -/
def pprStepVec (n : ℕ) (nv : List (ℕ × ℕ × K)) (alpha : K) (v r : List K) : List K :=
  List.zipWith (fun vi ai => alpha * vi + (1 - alpha) * ai) v (pprApplyA n nv r)

/-- The iteration core shared by code and spec reading: starting from `r = v`,
apply the step exactly `iters` times (no early-exit check) and zip the result
back onto the candidate ids. -/
def pprIterate (cand : List ℤ) (edges : List (ℤ × ℤ × K)) (alpha : K) (iters : ℕ)
    (v : List K) : List (ℤ × K) :=
  cand.zip ((pprStepVec cand.length (pprNormVals (pprRestricted cand edges)) alpha v)^[iters] v)

/-- `_mini_ppr` as written: early zero returns when there are no candidates or
no edges, and when no edge is internal to the candidate set or the collected
column weights sum to zero; otherwise seeds are clamped at 0, normalized to
sum 1 (uniform if the clamped sum is nonpositive) and iterated. -/
def miniPPR (cand : List ℤ) (edges : List (ℤ × ℤ × K)) (seeds : ℤ → K)
    (alpha : K) (iters : ℕ) : List (ℤ × K) :=
  if cand = [] ∨ edges = [] then cand.map (fun m => (m, 0))
  else if pprRestricted cand edges = []
      ∨ ((pprRestricted cand edges).map (fun t => t.2.2)).sum = 0 then
    cand.map (fun m => (m, 0))
  else pprIterate cand edges alpha iters
    (if (cand.map (fun m => max 0 (seeds m))).sum ≤ 0 then
      List.replicate cand.length ((cand.length : K))⁻¹
    else (cand.map (fun m => max 0 (seeds m))).map
      (fun x => x / (cand.map (fun m => max 0 (seeds m))).sum))

/-- The seed vector exactly as the claim describes it: the seed weights on the
candidates, normalized to sum 1, with uniform fallback when all seeds are
zero. -/
def pprSpecVec (cand : List ℤ) (seeds : ℤ → K) : List K :=
  if ∀ m ∈ cand, seeds m = 0 then List.replicate cand.length ((cand.length : K))⁻¹
  else (cand.map seeds).map (fun x => x / (cand.map seeds).sum)

/-- The mini personalized PageRank without `_mini_ppr`'s early exits: restrict
to in-candidate edges, column-normalize with default divisor 1, normalize the
seed vector (uniform fallback), then apply the step
`r = alpha*v + (1-alpha)*(scatter)` exactly `iters` times starting from
`r = v`, with no early exit of any kind.  The step uses the same
last-write-wins scatter as the code (see `pprApplyA`), which is the claimed
`A*r` only when every candidate has restricted in-degree at most one; at the
counterexample input below the restricted edge set is empty, where the two
coincide. -/
def pprSpec (cand : List ℤ) (edges : List (ℤ × ℤ × K)) (seeds : ℤ → K)
    (alpha : K) (iters : ℕ) : List (ℤ × K) :=
  pprIterate cand edges alpha iters (pprSpecVec cand seeds)

/-! Hybrid fusion (`hybrid_search`).  The first-stage recall results
(`bm25_search` / `dense_search` to depth 400), the loaded `pr_global.json` and
`edges.jsonl`, per-candidate metadata and the wall-clock freshness values are
taken as inputs; the ranked output keeps `(id, fused score)` (the remaining
output fields are metadata passthrough). -/

/-- Candidate metadata visible to the fusion loop (`id_meta` rows): role
string, `has_code` flag and the snippet/text used for the length prior. -/
structure HMeta where
  role : String
  hasCode : Bool
  snippet : String

/-- Dict score lookup `scores.get(i, 0.0)`. -/
def getScore (m : List (ℤ × ℝ)) (i : ℤ) : ℝ :=
  ((m.find? (fun e => e.1 = i)).map (fun e => e.2)).getD 0

/-- Mean of a signal over the candidate ids (`arr.mean()`). -/
noncomputable def zMu (ids : List ℤ) (score : ℤ → ℝ) : ℝ :=
  (ids.map score).sum / (ids.length : ℝ)

/-- Population standard deviation of a signal over the candidate ids
(`arr.std()`). -/
noncomputable def zSd (ids : List ℤ) (score : ℤ → ℝ) : ℝ :=
  Real.sqrt (((ids.map score).map (fun x => (x - zMu ids score) ^ 2)).sum / (ids.length : ℝ))

/-- `_z_norm` at one id: collapse to 0 when `sd < 1e-9`, else
`(x - mu) / (sd + 1e-9)`. -/
noncomputable def zNormVal (ids : List ℤ) (score : ℤ → ℝ) (i : ℤ) : ℝ :=
  if zSd ids score < 1/1000000000 then 0
  else (score i - zMu ids score) / (zSd ids score + 1/1000000000)

/-- The candidate id set `list({*bm_map.keys(), *cos_map.keys()})`. -/
def hybridCands (bm cos : List (ℤ × ℝ)) : List ℤ :=
  (bm.map (fun e => e.1) ++ cos.map (fun e => e.1)).dedup

/-- Seed weight per candidate, `(b ** beta) * ((c if c > 0 else b) ** gamma)`
with the default exponents `beta = gamma = 1.0` (power by 1 is the identity). -/
noncomputable def hybridSeeds (bm cos : List (ℤ × ℝ)) (i : ℤ) : ℝ :=
  (max 0 (getScore bm i)) *
    (if 0 < max 0 (getScore cos i) then max 0 (getScore cos i) else max 0 (getScore bm i))

/-- `ppr_raw`: `_mini_ppr(cand_ids, edges, seeds)` when the edge list is
nonempty, the all-zero map otherwise. -/
noncomputable def hybridPPRRaw (bm cos : List (ℤ × ℝ)) (edges : List (ℤ × ℤ × ℝ)) (i : ℤ) : ℝ :=
  if edges = [] then 0
  else getScore (miniPPR (hybridCands bm cos) edges (hybridSeeds bm cos) (1/5) 20) i

/-- Content prior:
`0.30·[role == "assistant"] + 0.40·[has_code] + 0.30·min(len(snippet), 800)/800`. -/
noncomputable def hybridPrior (meta : ℤ → HMeta) (i : ℤ) : ℝ :=
  (if (meta i).role.toLower = "assistant" then 0.30 else 0)
    + (if (meta i).hasCode then 0.40 else 0)
    + 0.30 * (min ((meta i).snippet.length) 800 : ℝ) / 800

/-- The fused score of a candidate, with the source's weights
`W_BM25, W_SEM, W_AUTH, W_FRSH, W_PRG, W_PPR` and its empty-dict fallbacks for
the optional cosine and global-authority signals. -/
noncomputable def hybridFused (bm cos prG : List (ℤ × ℝ)) (edges : List (ℤ × ℤ × ℝ))
    (meta : ℤ → HMeta) (fresh : ℤ → ℝ) (i : ℤ) : ℝ :=
  1.00 * zNormVal (hybridCands bm cos) (getScore bm) i
    + 0.55 * (if cos = [] then 0 else zNormVal (hybridCands bm cos) (getScore cos) i)
    + 0.20 * hybridPrior meta i
    + 0.10 * fresh i
    + 0.20 * (if prG = [] then 0 else zNormVal (hybridCands bm cos) (getScore prG) i)
    + 0.25 * zNormVal (hybridCands bm cos) (hybridPPRRaw bm cos edges) i

/-- `hybrid_search` after recall: empty candidates give an empty result,
otherwise the candidates are stably sorted by descending fused score, cut to
`topk`, and reported with their fused scores.  (`ppr_z` uses `_z_norm` directly:
with nonempty candidates `ppr_raw` is a nonempty dict.) -/
noncomputable def hybridSearch (bm cos prG : List (ℤ × ℝ)) (edges : List (ℤ × ℤ × ℝ))
    (meta : ℤ → HMeta) (fresh : ℤ → ℝ) (topk : ℕ) : List (ℤ × ℝ) :=
  if hybridCands bm cos = [] then []
  else
    (((hybridCands bm cos).insertionSort (fun a b =>
        hybridFused bm cos prG edges meta fresh b ≤ hybridFused bm cos prG edges meta fresh a)).take
      topk).map (fun i => (i, hybridFused bm cos prG edges meta fresh i))

/-! ### Global authority ranker: `build_pagerank` in `graph.py`

`build_pagerank` loads the edge triples, builds an `nx.DiGraph` (duplicate
`(src, dst)` pairs keep the last weight), builds the personalization vector
from the metadata, and calls `networkx.pagerank` with damping
`nx_alpha = 1 - max(0, min(alpha, 1))`.  The networkx power iteration
(`_pagerank_scipy`, `max_iter=100`, `tol=1e-6`) is embedded here from the
library source: right-normalize rows of the weighted adjacency (rows with zero
sum are zeroed and recorded as dangling), start from the uniform vector,
iterate `x = a*(x@A + sum(x[dangling])*p) + (1-a)*p`, return as soon as
`sum(|x - xlast|) < N*tol`, raise `PowerIterationFailedConvergence` when 100
iterations never meet the tolerance, and raise `ZeroDivisionError` when the
personalization restricted to the graph's nodes sums to zero.  The recency
boost `exp(-ln2*age/half_life)` of a metadata row is wall-clock dependent and
enters as the abstract per-row value `rb` (a nonnegative real, rationalized). -/

/-- One step of the networkx power iteration, over column convention
`(M j i)` = weight of `j → i` after row normalization. -/
def pgStep (n : ℕ) (M : Fin n → Fin n → ℚ) (dang : Finset (Fin n)) (alpha : ℚ)
    (p x : Fin n → ℚ) : Fin n → ℚ :=
  fun i => alpha * ((∑ j, x j * M j i) + (∑ j ∈ dang, x j) * p i) + (1 - alpha) * p i

/-- The convergence functional `err = np.absolute(x - xlast).sum()`. -/
def l1dist (n : ℕ) (x y : Fin n → ℚ) : ℚ := ∑ i, |x i - y i|

/-- The bounded iteration of `_pagerank_scipy`: step, test `err < N*tol`,
return on success, `none` (the `PowerIterationFailedConvergence` raise) when
the fuel runs out. -/
def pgLoop (n : ℕ) (step : (Fin n → ℚ) → Fin n → ℚ) (bound : ℚ) :
    ℕ → (Fin n → ℚ) → Option (Fin n → ℚ)
  | 0, _ => none
  | fuel + 1, x =>
    if l1dist n (step x) x < bound then some (step x) else pgLoop n step bound fuel (step x)

/-- Node insertion as performed by `G.add_edge` (new nodes appended). -/
def addNode (l : List ℤ) (x : ℤ) : List ℤ := if x ∈ l then l else l ++ [x]

/-- The node list of the `nx.DiGraph`, in insertion order. -/
def prNodes (edges : List (ℤ × ℤ × ℚ)) : List ℤ :=
  edges.foldl (fun acc e => addNode (addNode acc e.1) e.2.1) []

/-- Number of graph nodes. -/
def prN (edges : List (ℤ × ℤ × ℚ)) : ℕ := (prNodes edges).length

/-- Effective weight of `(s, d)` in the `DiGraph`: the weight of the last
`add_edge(s, d, weight=w)` call, `0` when the edge is absent. -/
def lastWeight (edges : List (ℤ × ℤ × ℚ)) (s d : ℤ) : ℚ :=
  ((edges.reverse.find? (fun e => e.1 = s ∧ e.2.1 = d)).map (fun e => e.2.2)).getD 0

/-- The weighted adjacency matrix `A` over the node list. -/
def prMatA (edges : List (ℤ × ℤ × ℚ)) : Fin (prN edges) → Fin (prN edges) → ℚ :=
  fun j i => lastWeight edges ((prNodes edges).get j) ((prNodes edges).get i)

/-- Row sums `S = A.sum(axis=1)`. -/
def prRowSum (edges : List (ℤ × ℤ × ℚ)) (j : Fin (prN edges)) : ℚ :=
  ∑ i, prMatA edges j i

/-- The row-normalized transition matrix `Q @ A`: rows with nonzero sum are
divided by their sum, rows with zero sum are zeroed. -/
def prM (edges : List (ℤ × ℤ × ℚ)) : Fin (prN edges) → Fin (prN edges) → ℚ :=
  fun j i => if prRowSum edges j = 0 then 0 else prMatA edges j i / prRowSum edges j

/-- The dangling nodes `np.where(S == 0)`. -/
def prDang (edges : List (ℤ × ℤ × ℚ)) : Finset (Fin (prN edges)) :=
  Finset.univ.filter (fun j => prRowSum edges j = 0)

/-- One metadata row as `build_pagerank` consumes it: message id, the
(abstract, nonnegative) recency boost value, and the role / code flags. -/
structure PRMeta where
  msg : ℤ
  rb : ℚ
  isAssistant : Bool
  hasCode : Bool
deriving DecidableEq

/-- Personalization mass of one metadata row:
`1e-6 + recency_boost(ts) + 0.05·[assistant] + 0.05·[has_code]`. -/
def prBoost (e : PRMeta) : ℚ :=
  1/1000000 + e.rb + (if e.isAssistant then 1/20 else 0) + (if e.hasCode then 1/20 else 0)

/-- The repo's own normalizer `s = sum(p.values()) or 1.0` (computed over all
metadata rows, before restricting to graph nodes). -/
def prS (meta : List PRMeta) : ℚ :=
  if (meta.map prBoost).sum = 0 then 1 else (meta.map prBoost).sum

/-- The personalization value networkx reads for node `i`:
`personalization.get(n, 0)` over the repo's dict `{k: v/s for k,v in p.items()
if k in G}` (dict assignment keeps the last entry per key). -/
def prPvec (edges : List (ℤ × ℤ × ℚ)) (meta : List PRMeta) (i : Fin (prN edges)) : ℚ :=
  (((meta.reverse.find? (fun e => e.msg = (prNodes edges).get i)).map prBoost).getD 0) / prS meta

/-- The personalization sum networkx tests against zero. -/
def prPsum (edges : List (ℤ × ℤ × ℚ)) (meta : List PRMeta) : ℚ :=
  ∑ i, prPvec edges meta i

/-- The two error raises of `networkx.pagerank` reachable from
`build_pagerank`. -/
inductive PRError where
  | zeroDivision
  | convergenceFailure
deriving DecidableEq

/-- `build_pagerank(edges, meta, alpha)`: empty graph returns the empty
mapping, a zero personalization restriction raises `ZeroDivisionError`, and
otherwise the networkx power iteration runs with damping
`1 - max(0, min(alpha, 1))` from the uniform start vector under tolerance
bound `N * 1e-6` and at most 100 iterations. -/
def buildPagerank (edges : List (ℤ × ℤ × ℚ)) (meta : List PRMeta) (alpha : ℚ) :
    Except PRError (List (ℤ × ℚ)) :=
  if prN edges = 0 then Except.ok []
  else if prPsum edges meta = 0 then Except.error PRError.zeroDivision
  else
    match pgLoop (prN edges)
        (pgStep (prN edges) (prM edges) (prDang edges) (1 - max 0 (min alpha 1))
          (fun i => prPvec edges meta i / prPsum edges meta))
        ((prN edges : ℚ) / 1000000) 100 (fun _ => ((prN edges : ℚ))⁻¹) with
    | some x => Except.ok ((List.finRange (prN edges)).map (fun i => ((prNodes edges).get i, x i)))
    | none => Except.error PRError.convergenceFailure

/-! ### Theorems: embedding store invariants (C7) -/

lemma sqNorm_nonneg (v : List ℝ) : 0 ≤ sqNorm v := by
  apply List.sum_nonneg
  intro x hx
  obtain ⟨y, -, rfl⟩ := List.mem_map.mp hx
  exact mul_self_nonneg y

lemma l2norm_eq_zero_iff (v : List ℝ) : l2norm v = 0 ↔ sqNorm v = 0 := by
  unfold l2norm
  constructor
  · intro hz
    have := Real.sqrt_eq_zero (sqNorm_nonneg v) |>.mp hz
    exact this
  · intro hz
    rw [hz, Real.sqrt_zero]

lemma l2norm_nonneg (v : List ℝ) : 0 ≤ l2norm v := Real.sqrt_nonneg _

lemma sqNorm_map_div (c : List ℝ) (n : ℝ) :
    sqNorm (c.map (fun x => x / n)) = sqNorm c * ((n * n)⁻¹) := by
  unfold sqNorm
  rw [List.map_map]
  have hfun : ((fun x => x * x) ∘ fun x => x / n) = fun x => (x * x) * (n * n)⁻¹ := by
    funext x
    simp only [Function.comp_apply]
    rw [div_eq_mul_inv, mul_inv]
    ring
  rw [hfun, ← List.sum_map_mul_right]

lemma l2norm_normalized (c : List ℝ) (hc : sqNorm c ≠ 0) :
    l2norm (c.map (fun x => x / l2norm c)) = 1 := by
  have hsq : (l2norm c) * (l2norm c) = sqNorm c := Real.mul_self_sqrt (sqNorm_nonneg c)
  have h1 : sqNorm (c.map (fun x => x / l2norm c)) = 1 := by
    rw [sqNorm_map_div, hsq, mul_inv_cancel₀ hc]
  rw [show l2norm (c.map (fun x => x / l2norm c))
      = Real.sqrt (sqNorm (c.map (fun x => x / l2norm c))) from rfl, h1, Real.sqrt_one]

lemma charTrigrams_empty : charTrigrams "" = [] := rfl

lemma charTrigrams_length (text : String) :
    (charTrigrams text).length = text.toList.length := by
  unfold charTrigrams
  simp

lemma charTrigrams_ne_nil (text : String) (ht : text ≠ "") : charTrigrams text ≠ [] := by
  intro hcon
  have hlen := charTrigrams_length text
  rw [hcon] at hlen
  have hdata : text.toList = [] := List.length_eq_zero.mp hlen.symm
  apply ht
  cases text with
  | mk l =>
    cases l with
    | nil => rfl
    | cons a as => simp [String.toList, String.data] at hdata

lemma hashBucket_lt (h : List Char → ℤ) (dims : ℕ) (hd : 0 < dims) (t : List Char) :
    0 ≤ hashBucket h dims t ∧ hashBucket h dims t < (dims : ℤ) := by
  have hdz : (dims : ℤ) ≠ 0 := by
    have : dims ≠ 0 := hd.ne'
    exact_mod_cast this
  have hdpos : (0 : ℤ) < dims := by exact_mod_cast hd
  exact ⟨Int.emod_nonneg _ hdz, Int.emod_lt_of_pos _ hdpos⟩

lemma embedCounts_pos_entry (h : List Char → ℤ) (dims : ℕ) (text : String)
    (hd : 0 < dims) (ht : text ≠ "") :
    ∃ k ∈ embedCounts h dims text, 1 ≤ k := by
  obtain ⟨t0, ts, hts⟩ := List.exists_cons_of_ne_nil (charTrigrams_ne_nil text ht)
  have hb := hashBucket_lt h dims hd t0
  have hi0lt : (hashBucket h dims t0).toNat < dims := by omega
  have hbeq : hashBucket h dims t0 = ((hashBucket h dims t0).toNat : ℤ) :=
    (Int.toNat_of_nonneg hb.1).symm
  refine ⟨((charTrigrams text).filter
      (fun t => hashBucket h dims t = ((hashBucket h dims t0).toNat : ℤ))).length, ?_, ?_⟩
  · unfold embedCounts
    refine List.mem_map.mpr ⟨(hashBucket h dims t0).toNat, List.mem_range.mpr hi0lt, rfl⟩
  · have ht0 : t0 ∈ (charTrigrams text).filter
        (fun t => hashBucket h dims t = ((hashBucket h dims t0).toNat : ℤ)) := by
      rw [List.mem_filter]
      refine ⟨hts ▸ List.mem_cons_self t0 ts, by simp [← hbeq]⟩
    have := List.length_pos.mpr (List.ne_nil_of_mem ht0)
    omega

lemma sqNorm_counts_pos (h : List Char → ℤ) (dims : ℕ) (text : String)
    (hd : 0 < dims) (ht : text ≠ "") :
    sqNorm ((embedCounts h dims text).map (fun n : ℕ => (n : ℝ))) ≠ 0 := by
  obtain ⟨k, hk, hk1⟩ := embedCounts_pos_entry h dims text hd ht
  have hmem : ((k : ℝ) * (k : ℝ)) ∈
      (((embedCounts h dims text).map (fun n : ℕ => (n : ℝ))).map (fun x => x * x)) := by
    rw [List.map_map]
    exact List.mem_map.mpr ⟨k, hk, rfl⟩
  have hle : ((k : ℝ) * (k : ℝ))
      ≤ sqNorm ((embedCounts h dims text).map (fun n : ℕ => (n : ℝ))) := by
    apply List.single_le_sum _ _ hmem
    intro x hx
    obtain ⟨y, -, rfl⟩ := List.mem_map.mp hx
    exact mul_self_nonneg y
  have hkpos : (1 : ℝ) ≤ (k : ℝ) := by exact_mod_cast hk1
  nlinarith

lemma embedVec_empty (h : List Char → ℤ) (dims : ℕ) :
    embedVec h dims "" = List.replicate dims 0 := by
  have hcounts : embedCounts h dims "" = List.replicate dims 0 := by
    unfold embedCounts
    rw [charTrigrams_empty]
    rw [List.eq_replicate_iff]
    refine ⟨by simp, ?_⟩
    intro b hb
    obtain ⟨i, -, rfl⟩ := List.mem_map.mp hb
    simp
  have hc : (embedCounts h dims "").map (fun n : ℕ => (n : ℝ)) = List.replicate dims (0 : ℝ) := by
    rw [hcounts, List.map_replicate]
    norm_num
  have hz : sqNorm (List.replicate dims (0 : ℝ)) = 0 := by
    unfold sqNorm
    rw [List.map_replicate]
    simp
  unfold embedVec
  rw [hc, show l2norm (List.replicate dims (0 : ℝ)) = 0 from (l2norm_eq_zero_iff _).mpr hz]
  simp [List.map_replicate]

/-- C7.  For every hash function, positive dimension and text, `_embed`
produces a vector of L2 norm 0 or 1; the vector has norm exactly 1 whenever
the text is nonempty (some trigram was hashed), and embedding the empty
string yields the zero vector. -/
theorem embed_norm_zero_or_one (h : List Char → ℤ) (dims : ℕ) (text : String)
    (hd : 0 < dims) :
    (l2norm (embedVec h dims text) = 0 ∨ l2norm (embedVec h dims text) = 1)
    ∧ (text ≠ "" → l2norm (embedVec h dims text) = 1)
    ∧ embedVec h dims "" = List.replicate dims 0 := by
  have key : ∀ s : String, sqNorm ((embedCounts h dims s).map (fun n : ℕ => (n : ℝ))) ≠ 0 →
      l2norm (embedVec h dims s) = 1 := by
    intro s hne
    unfold embedVec
    have hpos : 0 < l2norm ((embedCounts h dims s).map (fun n : ℕ => (n : ℝ))) := by
      rcases lt_or_eq_of_le (l2norm_nonneg ((embedCounts h dims s).map (fun n : ℕ => (n : ℝ))))
        with hlt | heq
      · exact hlt
      · exact absurd ((l2norm_eq_zero_iff _).mp heq.symm) hne
    rw [if_pos hpos]
    exact l2norm_normalized _ hne
  refine ⟨?_, ?_, embedVec_empty h dims⟩
  · by_cases hz : sqNorm ((embedCounts h dims text).map (fun n : ℕ => (n : ℝ))) = 0
    · left
      unfold embedVec
      have h0 : l2norm ((embedCounts h dims text).map (fun n : ℕ => (n : ℝ))) = 0 :=
        (l2norm_eq_zero_iff _).mpr hz
      rw [h0]
      simp only [lt_self_iff_false, if_false]
      exact h0
    · right
      exact key text hz
  · intro ht
    exact key text (sqNorm_counts_pos h dims text hd ht)

/-- C7 witness: the theorem applied at dimension 3, the zero hash and the text
"ab". -/
theorem embed_norm_zero_or_one_witness :
    (0 < 3)
    ∧ ((l2norm (embedVec (fun _ => 0) 3 "ab") = 0 ∨ l2norm (embedVec (fun _ => 0) 3 "ab") = 1)
      ∧ ("ab" ≠ "" → l2norm (embedVec (fun _ => 0) 3 "ab") = 1)
      ∧ embedVec (fun _ => 0) 3 "" = List.replicate 3 0) :=
  ⟨by decide, embed_norm_zero_or_one (fun _ => 0) 3 "ab" (by decide)⟩

/-! ### Theorems: idf at build time (C8) and build determinism (C9) -/

lemma bumpPosting_length (pl : List (ℤ × ℕ)) (d : ℤ) (tf : ℕ) :
    (bumpPosting pl d tf).length ≤ pl.length + 1 := by
  unfold bumpPosting
  split
  · rw [List.length_map]
    omega
  · rw [List.length_append]
    simp

lemma postingsFold_length (term : String) :
    ∀ (rows : List (ℤ × List String)) (init : List (ℤ × ℕ)),
      (rows.foldl (fun pl row =>
        if row.2.count term = 0 then pl else bumpPosting pl row.1 (row.2.count term)) init).length
      ≤ init.length + rows.length := by
  intro rows
  induction rows with
  | nil =>
    intro init
    simp
  | cons r rest ih =>
    intro init
    rw [List.foldl_cons]
    refine le_trans (ih _) ?_
    by_cases hc : r.2.count term = 0
    · rw [if_pos hc]
      simp only [List.length_cons]
      omega
    · rw [if_neg hc]
      have := bumpPosting_length init r.1 (r.2.count term)
      simp only [List.length_cons]
      omega

lemma dfOf_le_docCount (term : String) (rows : List (ℤ × List String)) :
    dfOf term rows ≤ docCount rows := by
  unfold dfOf postingsFor docCount
  have := postingsFold_length term rows []
  simpa using this

/-- C8.  For every corpus and every indexed term (a term of the built
vocabulary), the idf recorded in the `idf.json` artifact is exactly
`ln((N - df + 0.5)/(df + 0.5) + 1)` for the build-time document frequency
`df`, the frequency satisfies `df ≤ N`, and the recorded value is
nonnegative. -/
theorem build_idf_formula_nonneg (rows : List (ℤ × List String)) (term : String)
    (h : term ∈ termsOf rows) :
    (term, idfBuild rows term) ∈ idfArtifact rows
    ∧ idfBuild rows term
      = Real.log ((((docCount rows : ℝ) - (dfOf term rows : ℝ) + 1/2)
          / ((dfOf term rows : ℝ) + 1/2)) + 1)
    ∧ dfOf term rows ≤ docCount rows
    ∧ 0 ≤ idfBuild rows term := by
  have hdf : dfOf term rows ≤ docCount rows := dfOf_le_docCount term rows
  refine ⟨List.mem_map.mpr ⟨term, h, rfl⟩, rfl, hdf, ?_⟩
  unfold idfBuild
  apply Real.log_nonneg
  have hnum : (0 : ℝ) < (docCount rows : ℝ) - (dfOf term rows : ℝ) + 1/2 := by
    have : (dfOf term rows : ℝ) ≤ (docCount rows : ℝ) := by exact_mod_cast hdf
    linarith
  have hden : (0 : ℝ) < (dfOf term rows : ℝ) + 1/2 := by positivity
  have hq : 0 ≤ ((docCount rows : ℝ) - (dfOf term rows : ℝ) + 1/2)
      / ((dfOf term rows : ℝ) + 1/2) := le_of_lt (div_pos hnum hden)
  linarith

/-- C8 witness: the theorem at the one-row corpus `[(0, ["a"])]` and the
term "a". -/
theorem build_idf_formula_nonneg_witness :
    ("a" ∈ termsOf [((0 : ℤ), ["a"])])
    ∧ (("a", idfBuild [((0 : ℤ), ["a"])] "a") ∈ idfArtifact [((0 : ℤ), ["a"])]
      ∧ idfBuild [((0 : ℤ), ["a"])] "a"
        = Real.log ((((docCount [((0 : ℤ), ["a"])] : ℝ) - (dfOf "a" [((0 : ℤ), ["a"])] : ℝ) + 1/2)
            / ((dfOf "a" [((0 : ℤ), ["a"])] : ℝ) + 1/2)) + 1)
      ∧ dfOf "a" [((0 : ℤ), ["a"])] ≤ docCount [((0 : ℤ), ["a"])]
      ∧ 0 ≤ idfBuild [((0 : ℤ), ["a"])] "a") :=
  ⟨by decide, build_idf_formula_nonneg [((0 : ℤ), ["a"])] "a" (by decide)⟩

/-- C9.  Building the lexical index is a pure function of the row data: two
builds over the same unchanged rows produce identical `idf.json`,
`doclen.json` and `stats.json` artifacts (the stats being recomputed from the
rows on every build). -/
theorem build_bm25_deterministic (rows rows' : List (ℤ × List String)) (k1 b : ℚ)
    (h : rows = rows') :
    idfArtifact rows = idfArtifact rows'
    ∧ doclenArtifact rows = doclenArtifact rows'
    ∧ statsArtifact rows k1 b = statsArtifact rows' k1 b := by
  subst h
  exact ⟨rfl, rfl, rfl⟩

/-- C9 witness: the theorem at a concrete two-row corpus and the default
`k1 = 1.2`, `b = 0.75`. -/
theorem build_bm25_deterministic_witness :
    ([((0 : ℤ), ["a", "b"]), ((1 : ℤ), ["a"])] = [((0 : ℤ), ["a", "b"]), ((1 : ℤ), ["a"])])
    ∧ (idfArtifact [((0 : ℤ), ["a", "b"]), ((1 : ℤ), ["a"])]
        = idfArtifact [((0 : ℤ), ["a", "b"]), ((1 : ℤ), ["a"])]
      ∧ doclenArtifact [((0 : ℤ), ["a", "b"]), ((1 : ℤ), ["a"])]
        = doclenArtifact [((0 : ℤ), ["a", "b"]), ((1 : ℤ), ["a"])]
      ∧ statsArtifact [((0 : ℤ), ["a", "b"]), ((1 : ℤ), ["a"])] (6/5) (3/4)
        = statsArtifact [((0 : ℤ), ["a", "b"]), ((1 : ℤ), ["a"])] (6/5) (3/4)) :=
  ⟨rfl, build_bm25_deterministic _ _ (6/5) (3/4) rfl⟩

/-! ### Theorems: dense search dimensions (C5) and recall shape (C10) -/

lemma embedCounts_length (h : List Char → ℤ) (dims : ℕ) (text : String) :
    (embedCounts h dims text).length = dims := by
  unfold embedCounts
  rw [List.length_map, List.length_range]

lemma embedVec_length (h : List Char → ℤ) (dims : ℕ) (text : String) :
    (embedVec h dims text).length = dims := by
  have hc : ((embedCounts h dims text).map (fun n : ℕ => (n : ℝ))).length = dims := by
    rw [List.length_map, embedCounts_length]
  unfold embedVec
  split
  · rw [List.length_map, hc]
  · exact hc

/-- C5.  `dense_search` embeds the query at the dimension of the stored matrix
(`_embed(query, mat.shape[1])`), so for a well-formed store the query vector's
dimension always equals the stored dimension — the claimed mismatch
precondition is unsatisfiable, which is exactly why the search never errors
and never pads or truncates: the elementwise products feeding each dot-product
score cover all `dims` components of both the stored and the query vector. -/
theorem dense_query_dimension_always_matches (h : List Char → ℤ) (st : VecStore)
    (query : String) (hw : ∀ e ∈ st.entries, (e.2 : List ℝ).length = st.dims) :
    (denseQueryVec h st query).length = st.dims
    ∧ ∀ e ∈ st.entries,
        (List.zipWith (fun a b => a * b) e.2 (denseQueryVec h st query)).length = st.dims := by
  have hq : (denseQueryVec h st query).length = st.dims := embedVec_length h st.dims query
  refine ⟨hq, ?_⟩
  intro e he
  rw [List.length_zipWith, hq, hw e he, min_self]

/-- C5 witness: a two-dimensional store with one row, queried with "x". -/
theorem dense_query_dimension_always_matches_witness :
    (∀ e ∈ (VecStore.mk 2 [((0 : ℤ), [(1 : ℝ), 0])]).entries, (e.2 : List ℝ).length
      = (VecStore.mk 2 [((0 : ℤ), [(1 : ℝ), 0])]).dims)
    ∧ ((denseQueryVec (fun _ => 0) (VecStore.mk 2 [((0 : ℤ), [(1 : ℝ), 0])]) "x").length
        = (VecStore.mk 2 [((0 : ℤ), [(1 : ℝ), 0])]).dims
      ∧ ∀ e ∈ (VecStore.mk 2 [((0 : ℤ), [(1 : ℝ), 0])]).entries,
          (List.zipWith (fun a b => a * b) e.2
            (denseQueryVec (fun _ => 0) (VecStore.mk 2 [((0 : ℤ), [(1 : ℝ), 0])]) "x")).length
          = (VecStore.mk 2 [((0 : ℤ), [(1 : ℝ), 0])]).dims) := by
  have hw : ∀ e ∈ (VecStore.mk 2 [((0 : ℤ), [(1 : ℝ), 0])]).entries, (e.2 : List ℝ).length
      = (VecStore.mk 2 [((0 : ℤ), [(1 : ℝ), 0])]).dims := by
    intro e he
    rw [List.mem_singleton] at he
    subst he
    rfl
  exact ⟨hw, dense_query_dimension_always_matches (fun _ => 0) _ "x" hw⟩

/-- C10.  `dense_search` applies no similarity threshold: it returns exactly
`min(topk, m)` results for `m` stored vectors, ordered by descending dot
product; when `topk` covers the store every stored id (zero-similarity ones
included) appears in the output.  Lexical `bm25_search`, by contrast, can only
return documents drawn from the postings list of some query term. -/
theorem dense_search_no_threshold (h : List Char → ℤ) (st : VecStore) (query : String)
    (topk : ℕ) (index : List (String × List (ℤ × ℕ))) (idf : String → ℚ) (doclen : ℤ → ℕ)
    (avgLen K1 B : ℚ) (qTerms : List String) (tk : ℕ) :
    (denseSearch h st query topk).length = min topk st.entries.length
    ∧ (denseSearch h st query topk).Pairwise (fun a b => b.2 ≤ a.2)
    ∧ (st.entries.length ≤ topk →
        ((denseSearch h st query topk).map (fun e => e.1)).Perm
          (st.entries.map (fun e => e.1)))
    ∧ ∀ d ∈ bm25Ranked index idf doclen avgLen K1 B qTerms tk,
        ∃ t ∈ qTerms, d ∈ (plistOf index t).map (fun e => e.1) := by
  haveI htot : IsTotal (ℤ × ℝ) (fun a b => b.2 ≤ a.2) := ⟨fun a b => le_total b.2 a.2⟩
  haveI htrans : IsTrans (ℤ × ℝ) (fun a b => b.2 ≤ a.2) :=
    ⟨fun _ _ _ hab hbc => le_trans hbc hab⟩
  have hperm := List.perm_insertionSort (fun (a b : ℤ × ℝ) => b.2 ≤ a.2)
    (st.entries.map (fun e => (e.1, dotList e.2 (denseQueryVec h st query))))
  refine ⟨?_, ?_, ?_, ?_⟩
  · unfold denseSearch
    rw [List.length_take, hperm.length_eq, List.length_map]
  · unfold denseSearch
    exact ((List.sorted_insertionSort (fun (a b : ℤ × ℝ) => b.2 ≤ a.2) _).sublist
      (List.take_sublist _ _))
  · intro hlen
    unfold denseSearch
    have hfull : ((st.entries.map
          (fun e => (e.1, dotList e.2 (denseQueryVec h st query)))).insertionSort
          (fun a b => b.2 ≤ a.2)).length ≤ topk := by
      rw [hperm.length_eq, List.length_map]
      exact hlen
    rw [List.take_of_length_le hfull]
    have := (hperm.map (fun (e : ℤ × ℝ) => e.1))
    rw [List.map_map] at this
    simpa using this
  · intro d hd
    unfold bm25Ranked bm25RankedFrom at hd
    have hd2 : d ∈ (seenDocs index idf qTerms).insertionSort
        (fun a b => bm25Scores index idf doclen avgLen K1 B qTerms b
          ≤ bm25Scores index idf doclen avgLen K1 B qTerms a) :=
      List.mem_of_mem_take hd
    have hd3 : d ∈ seenDocs index idf qTerms :=
      (List.perm_insertionSort _ _).mem_iff.mp hd2
    unfold seenDocs at hd3
    rw [List.mem_dedup] at hd3
    obtain ⟨t, ht, hdt⟩ := List.mem_flatMap.mp hd3
    refine ⟨t, ht, ?_⟩
    by_cases hidf : 0 < idf t
    · rwa [if_pos hidf] at hdt
    · rw [if_neg hidf] at hdt
      exact absurd hdt (List.not_mem_nil d)

/-- C10 witness: a one-row store queried at depth 5, which covers the store. -/
theorem dense_search_no_threshold_witness :
    (denseSearch (fun _ => 0) (VecStore.mk 2 [((7 : ℤ), [(1 : ℝ), 0])]) "x" 5).length
      = min 5 (VecStore.mk 2 [((7 : ℤ), [(1 : ℝ), 0])]).entries.length
    ∧ (denseSearch (fun _ => 0) (VecStore.mk 2 [((7 : ℤ), [(1 : ℝ), 0])]) "x" 5).Pairwise
        (fun a b => b.2 ≤ a.2)
    ∧ ((denseSearch (fun _ => 0) (VecStore.mk 2 [((7 : ℤ), [(1 : ℝ), 0])]) "x" 5).map
        (fun e => e.1)).Perm
        ((VecStore.mk 2 [((7 : ℤ), [(1 : ℝ), 0])]).entries.map (fun e => e.1)) := by
  have main := dense_search_no_threshold (fun _ => 0)
    (VecStore.mk 2 [((7 : ℤ), [(1 : ℝ), 0])]) "x" 5 [] (fun _ => 0) (fun _ => 0)
    1 1 1 [] 0
  exact ⟨main.1, main.2.1, main.2.2.1 (by simp)⟩

/-! ### Theorems: BM25 ranking order (C4)

Python's `sorted` is stable: a descending sort over candidates enumerated in
some iteration order ranks by descending score with ties kept in that
iteration order.  The two lemmas below prove this for
`List.orderedInsert`/`List.insertionSort` with the key relation `f y ≤ f x`,
for an arbitrary precedence relation `prec` holding pairwise along the input
enumeration. -/

lemma orderedInsert_pairwise_desc (f : ℤ → ℚ) (prec : ℤ → ℤ → Prop) (a : ℤ) :
    ∀ s : List ℤ, s.Pairwise (fun x y => f y < f x ∨ (f x = f y ∧ prec x y)) →
      (∀ x ∈ s, prec a x) →
      (s.orderedInsert (fun x y => f y ≤ f x) a).Pairwise
        (fun x y => f y < f x ∨ (f x = f y ∧ prec x y)) := by
  intro s
  induction s with
  | nil =>
    intro _ _
    simp [List.orderedInsert]
  | cons x t ih =>
    intro hs ha
    rw [List.pairwise_cons] at hs
    obtain ⟨hx, ht⟩ := hs
    by_cases hr : f x ≤ f a
    · rw [List.orderedInsert, if_pos hr, List.pairwise_cons]
      constructor
      · intro z hz
        rcases List.mem_cons.mp hz with rfl | hzt
        · rcases lt_or_eq_of_le hr with hlt | heq
          · exact Or.inl hlt
          · exact Or.inr ⟨heq.symm, ha z (List.mem_cons_self z t)⟩
        · rcases hx z hzt with hlt | ⟨heq, _⟩
          · exact Or.inl (lt_of_lt_of_le hlt hr)
          · have hle : f z ≤ f a := heq ▸ hr
            rcases lt_or_eq_of_le hle with hlt | heq2
            · exact Or.inl hlt
            · exact Or.inr ⟨heq2.symm, ha z (List.mem_cons_of_mem x hzt)⟩
      · exact List.pairwise_cons.mpr ⟨hx, ht⟩
    · rw [List.orderedInsert, if_neg hr, List.pairwise_cons]
      constructor
      · intro w hw
        rcases (List.mem_orderedInsert _).mp hw with rfl | hwt
        · exact Or.inl (not_le.mp hr)
        · exact hx w hwt
      · exact ih ht (fun y hy => ha y (List.mem_cons_of_mem x hy))

lemma insertionSort_pairwise_desc (f : ℤ → ℚ) (prec : ℤ → ℤ → Prop) :
    ∀ l : List ℤ, l.Pairwise prec →
      (l.insertionSort (fun x y => f y ≤ f x)).Pairwise
        (fun x y => f y < f x ∨ (f x = f y ∧ prec x y)) := by
  intro l
  induction l with
  | nil =>
    intro _
    simp [List.insertionSort]
  | cons a t ih =>
    intro hl
    rw [List.pairwise_cons] at hl
    rw [List.insertionSort]
    apply orderedInsert_pairwise_desc
    · exact ih hl.2
    · intro x hx
      exact hl.1 x ((List.perm_insertionSort _ _).mem_iff.mp hx)

/-- C4 counterexample to the ascending-id tie-break.  The index holds one term
`"a"` with unit-tf postings for docs `5` and `1000`; with `idf = 1`,
`doclen = 1`, `avg_len = 1`, `k1 = 0`, `b = 0` both docs score exactly `1`.
CPython's `set` iterates in hash-table slot order, not ascending id order:
`seen_docs = {5, 1000}` has table size 8, `hash(1000) & 7 = 0` and
`hash(5) & 7 = 5`, so the set iterates `[1000, 5]` and the stable descending
sort returns `[1000, 5]` — the larger id first on an exact score tie, so the
ranked list is not pairwise "higher score, or equal score and smaller id". -/
theorem bm25_tie_order_not_ascending_counterexample :
    ¬ (bm25RankedFrom [("a", [((5 : ℤ), (1 : ℕ)), (1000, 1)])] (fun _ => 1) (fun _ => 1)
        1 0 0 ["a"] [1000, 5] 10).Pairwise
      (fun x y => bm25Scores [("a", [((5 : ℤ), (1 : ℕ)), (1000, 1)])] (fun _ => 1)
            (fun _ => 1) 1 0 0 ["a"] y
          < bm25Scores [("a", [((5 : ℤ), (1 : ℕ)), (1000, 1)])] (fun _ => 1)
            (fun _ => 1) 1 0 0 ["a"] x
        ∨ (bm25Scores [("a", [((5 : ℤ), (1 : ℕ)), (1000, 1)])] (fun _ => 1)
            (fun _ => 1) 1 0 0 ["a"] x
          = bm25Scores [("a", [((5 : ℤ), (1 : ℕ)), (1000, 1)])] (fun _ => 1)
            (fun _ => 1) 1 0 0 ["a"] y ∧ x < y)) := by
  intro hpw
  have hterm : bm25Term 1 1 1 1 0 0 = 1 := by
    unfold bm25Term
    rw [show ((1 : ℕ) : ℚ) + 0 * (1 - 0 + 0 * (((1 : ℕ) : ℚ) / max 1 1)) = 1 by push_cast; ring]
    rw [max_eq_right (by norm_num : (1 : ℚ)/1000000000 ≤ 1)]
    norm_num
  have h5 : bm25Scores [("a", [((5 : ℤ), (1 : ℕ)), (1000, 1)])] (fun _ => 1)
      (fun _ => 1) 1 0 0 ["a"] 5 = 1 := by
    show (if (0 : ℚ) < 1 then bm25Term 1 1 1 1 0 0 + 0 else 0) + 0 = 1
    rw [if_pos (show (0 : ℚ) < 1 by norm_num), hterm]
    norm_num
  have h1000 : bm25Scores [("a", [((5 : ℤ), (1 : ℕ)), (1000, 1)])] (fun _ => 1)
      (fun _ => 1) 1 0 0 ["a"] 1000 = 1 := by
    show (if (0 : ℚ) < 1 then bm25Term 1 1 1 1 0 0 + 0 else 0) + 0 = 1
    rw [if_pos (show (0 : ℚ) < 1 by norm_num), hterm]
    norm_num
  have hout : bm25RankedFrom [("a", [((5 : ℤ), (1 : ℕ)), (1000, 1)])] (fun _ => 1)
      (fun _ => 1) 1 0 0 ["a"] [1000, 5] 10 = [1000, 5] := by
    unfold bm25RankedFrom
    rw [show List.insertionSort
        (fun a b => bm25Scores [("a", [((5 : ℤ), (1 : ℕ)), (1000, 1)])] (fun _ => 1)
            (fun _ => 1) 1 0 0 ["a"] b
          ≤ bm25Scores [("a", [((5 : ℤ), (1 : ℕ)), (1000, 1)])] (fun _ => 1)
            (fun _ => 1) 1 0 0 ["a"] a) [(1000 : ℤ), 5]
      = List.orderedInsert
        (fun a b => bm25Scores [("a", [((5 : ℤ), (1 : ℕ)), (1000, 1)])] (fun _ => 1)
            (fun _ => 1) 1 0 0 ["a"] b
          ≤ bm25Scores [("a", [((5 : ℤ), (1 : ℕ)), (1000, 1)])] (fun _ => 1)
            (fun _ => 1) 1 0 0 ["a"] a) (1000 : ℤ) [5] from rfl]
    have hle : (fun a b => bm25Scores [("a", [((5 : ℤ), (1 : ℕ)), (1000, 1)])] (fun _ => 1)
            (fun _ => 1) 1 0 0 ["a"] b
          ≤ bm25Scores [("a", [((5 : ℤ), (1 : ℕ)), (1000, 1)])] (fun _ => 1)
            (fun _ => 1) 1 0 0 ["a"] a) (1000 : ℤ) 5 :=
      le_of_eq (h5.trans h1000.symm)
    rw [List.orderedInsert_of_le _ ([] : List ℤ) hle]
    rfl
  rw [hout] at hpw
  have hhead := (List.pairwise_cons.mp hpw).1 5 (List.mem_cons_self 5 [])
  rw [h5, h1000] at hhead
  rcases hhead with hlt | ⟨_, hlt⟩
  · exact absurd hlt (by norm_num)
  · exact absurd hlt (by norm_num)

/-- C4 (amended).  `bm25_search` sorts the candidate set with Python's stable
`sorted(..., reverse=True)`, so the ranked list is pairwise ordered by
"strictly higher score, or equal score and earlier in the set's iteration
sequence".  The iteration sequence of the CPython `set` is an
implementation-defined (hash-slot-order) enumeration of the candidates, not
ascending id order, so the theorem holds for every enumeration `seen` and
every precedence relation `prec` that holds pairwise along it. -/
theorem bm25_ranked_sorted_desc_stable (index : List (String × List (ℤ × ℕ)))
    (idf : String → ℚ) (doclen : ℤ → ℕ) (avgLen K1 B : ℚ) (qTerms : List String)
    (seen : List ℤ) (prec : ℤ → ℤ → Prop) (hprec : seen.Pairwise prec) (topk : ℕ) :
    (bm25RankedFrom index idf doclen avgLen K1 B qTerms seen topk).Pairwise
      (fun x y => bm25Scores index idf doclen avgLen K1 B qTerms y
          < bm25Scores index idf doclen avgLen K1 B qTerms x
        ∨ (bm25Scores index idf doclen avgLen K1 B qTerms x
            = bm25Scores index idf doclen avgLen K1 B qTerms y ∧ prec x y)) := by
  unfold bm25RankedFrom
  exact (insertionSort_pairwise_desc _ prec seen hprec).sublist (List.take_sublist _ _)

/-- C4 witness: the amended theorem at the counterexample's iteration sequence
`[1000, 5]` with precedence "comes earlier in `[1000, 5]`", on an empty index. -/
theorem bm25_ranked_sorted_desc_stable_witness :
    ([(1000 : ℤ), 5].Pairwise (fun a b : ℤ => a = 1000 ∧ b = 5))
    ∧ (bm25RankedFrom [] (fun _ => 1) (fun _ => 1) 1 1 1 [] [(1000 : ℤ), 5] 10).Pairwise
      (fun x y => bm25Scores [] (fun _ => 1) (fun _ => 1) 1 1 1 [] y
          < bm25Scores [] (fun _ => 1) (fun _ => 1) 1 1 1 [] x
        ∨ (bm25Scores [] (fun _ => 1) (fun _ => 1) 1 1 1 [] x
            = bm25Scores [] (fun _ => 1) (fun _ => 1) 1 1 1 [] y
          ∧ (x = 1000 ∧ y = 5))) :=
  ⟨by decide, bm25_ranked_sorted_desc_stable [] (fun _ => 1) (fun _ => 1) 1 1 1 []
    [1000, 5] (fun a b => a = 1000 ∧ b = 5) (by decide) 10⟩

/-! ### Theorems: reply edges (C6) -/

lemma rel_of_mem_consecPairs {α : Type} (R : α → α → Prop) :
    ∀ (l : List α) (p : α × α), p ∈ consecPairs l → l.Pairwise R → R p.1 p.2 := by
  intro l
  induction l with
  | nil =>
    intro p hp _
    simp [consecPairs] at hp
  | cons x t ih =>
    intro p hp hl
    cases t with
    | nil => simp [consecPairs] at hp
    | cons y t' =>
      rw [List.pairwise_cons] at hl
      unfold consecPairs at hp
      rw [List.tail_cons, List.zip_cons_cons] at hp
      rcases List.mem_cons.mp hp with rfl | hp'
      · exact hl.1 y (List.mem_cons_self y t')
      · exact ih p hp' hl.2

lemma mem_of_mem_consecPairs {α : Type} :
    ∀ (l : List α) (p : α × α), p ∈ consecPairs l → p.1 ∈ l ∧ p.2 ∈ l := by
  intro l p hp
  unfold consecPairs at hp
  obtain ⟨h1, h2⟩ := List.of_mem_zip (by exact hp)
  exact ⟨h1, (List.tail_sublist l).mem h2⟩

lemma find?_msg_of_nodup (rows : List GRow) (hnd : (rows.map (fun r => r.msg)).Nodup)
    (r : GRow) (hr : r ∈ rows) : rows.find? (fun x => x.msg = r.msg) = some r := by
  induction rows with
  | nil => cases hr
  | cons a t ih =>
    rw [List.map_cons, List.nodup_cons] at hnd
    rcases List.mem_cons.mp hr with rfl | hrt
    · exact List.find?_cons_of_pos _ (by simp)
    · have hne : a.msg ≠ r.msg := fun he => hnd.1 (he ▸ List.mem_map.mpr ⟨r, hrt, rfl⟩)
      rw [List.find?_cons_of_neg _ (by simp [hne])]
      exact ih hnd.2 hrt

lemma convSorted_mem (rows : List GRow) (c : String) (r : GRow)
    (hr : r ∈ convSorted rows c) : r ∈ rows ∧ r.conv = c := by
  unfold convSorted at hr
  have := (List.perm_insertionSort _ _).mem_iff.mp hr
  unfold convRows at this
  obtain ⟨hmem, hconv⟩ := List.mem_filter.mp this
  exact ⟨hmem, by simpa using hconv⟩

lemma convSorted_pairwise_ts (rows : List GRow) (c : String) :
    (convSorted rows c).Pairwise (fun a b => a.ts ≤ b.ts) := by
  haveI : IsTotal GRow (fun a b : GRow => a.ts ≤ b.ts) := ⟨fun a b => le_total a.ts b.ts⟩
  haveI : IsTrans GRow (fun a b : GRow => a.ts ≤ b.ts) := ⟨fun _ _ _ => le_trans⟩
  exact List.sorted_insertionSort _ _

lemma mem_replyEdgesOf (rows : List GRow) (hnd : (rows.map (fun r => r.msg)).Nodup)
    (c : String) (e : GEdge) (he : e ∈ replyEdgesOf rows c) :
    e.w = 2 ∧ e.type = "reply" ∧ convOf rows e.src = some c ∧ convOf rows e.dst = some c
      ∧ ∃ ta tb, tsOf rows e.src = some ta ∧ tsOf rows e.dst = some tb ∧ ta ≤ tb := by
  unfold replyEdgesOf at he
  obtain ⟨p, hp, rfl⟩ := List.mem_map.mp he
  obtain ⟨h1, h2⟩ := mem_of_mem_consecPairs _ p hp
  obtain ⟨h1r, h1c⟩ := convSorted_mem rows c p.1 h1
  obtain ⟨h2r, h2c⟩ := convSorted_mem rows c p.2 h2
  have hts := rel_of_mem_consecPairs _ _ p hp (convSorted_pairwise_ts rows c)
  have hf1 := find?_msg_of_nodup rows hnd p.1 h1r
  have hf2 := find?_msg_of_nodup rows hnd p.2 h2r
  refine ⟨rfl, rfl, ?_, ?_, p.1.ts, p.2.ts, ?_, ?_, hts⟩
  · unfold convOf
    rw [hf1]
    simp [h1c]
  · unfold convOf
    rw [hf2]
    simp [h2c]
  · unfold tsOf
    rw [hf1]
    simp
  · unfold tsOf
    rw [hf2]
    simp

lemma filter_flatMap_distrib {α β : Type} (g : α → List β) (p : β → Bool) :
    ∀ L : List α, (L.flatMap g).filter p = L.flatMap (fun x => (g x).filter p) := by
  intro L
  induction L with
  | nil => simp
  | cons a t ih => rw [List.flatMap_cons, List.flatMap_cons, List.filter_append, ih]

lemma flatMap_if_single {β : Type} (g : String → List β) (c : String) :
    ∀ L : List String, L.Nodup → c ∈ L →
      (L.flatMap (fun x => if x = c then g x else [])) = g c := by
  intro L
  induction L with
  | nil =>
    intro _ h
    cases h
  | cons a t ih =>
    intro hnd hc
    rw [List.flatMap_cons]
    rw [List.nodup_cons] at hnd
    rcases List.mem_cons.mp hc with rfl | hct
    · rw [if_pos rfl]
      have hnil : t.flatMap (fun x => if x = c then g x else []) = [] := by
        rw [List.flatMap_eq_nil_iff]
        intro x hx
        rw [if_neg (fun he : x = c => hnd.1 (he ▸ hx))]
      rw [hnil, List.append_nil]
    · have hne : a ≠ c := fun he : a = c => hnd.1 (he ▸ hct)
      rw [if_neg hne, List.nil_append, ih hnd.2 hct]

lemma filter_replyEdges (rows : List GRow) (hnd : (rows.map (fun r => r.msg)).Nodup)
    (c : String) (hc : c ∈ convIds rows) :
    (replyEdges rows).filter (fun e => convOf rows e.src = some c) = replyEdgesOf rows c := by
  unfold replyEdges
  rw [filter_flatMap_distrib]
  have hcomp : ∀ c' ∈ convIds rows,
      (replyEdgesOf rows c').filter (fun e => convOf rows e.src = some c)
        = if c' = c then replyEdgesOf rows c' else [] := by
    intro c' _
    by_cases hcc : c' = c
    · rw [if_pos hcc]
      apply List.filter_eq_self.mpr
      intro e he
      have := (mem_replyEdgesOf rows hnd c' e he).2.2.1
      simp [this, hcc]
    · rw [if_neg hcc]
      apply List.filter_eq_nil_iff.mpr
      intro e he
      have := (mem_replyEdgesOf rows hnd c' e he).2.2.1
      simp [this, hcc]
  have hcongr : ∀ (L : List String) (f g : String → List GEdge), (∀ x ∈ L, f x = g x) →
      L.flatMap f = L.flatMap g := by
    intro L f g hfg
    induction L with
    | nil => rfl
    | cons a t ih =>
      rw [List.flatMap_cons, List.flatMap_cons, hfg a (List.mem_cons_self a t),
        ih (fun x hx => hfg x (List.mem_cons_of_mem a hx))]
  rw [hcongr (convIds rows) _ (fun c' => if c' = c then replyEdgesOf rows c' else []) hcomp]
  exact flatMap_if_single _ c (convIds rows) (List.nodup_dedup _) hc

/-- C6.  For every corpus with distinct message ids: within each conversation
the emitted reply edges are exactly one edge per consecutive pair of the
conversation's rows sorted by timestamp ascending — hence a conversation with
`n` messages yields exactly `n - 1` reply edges — and every reply edge has
weight 2.0, joins two messages of the same conversation (never crossing
conversations) and is directed from the earlier message to the later one. -/
theorem build_reply_edges_structure (rows : List GRow)
    (hnd : (rows.map (fun r => r.msg)).Nodup) :
    (∀ c ∈ convIds rows,
        (replyEdges rows).filter (fun e => convOf rows e.src = some c)
            = (consecPairs (convSorted rows c)).map
                (fun p => GEdge.mk p.1.msg p.2.msg 2 "reply")
          ∧ ((replyEdges rows).filter (fun e => convOf rows e.src = some c)).length
            = (convRows rows c).length - 1)
    ∧ (∀ e ∈ replyEdges rows, e.w = 2 ∧ e.type = "reply"
        ∧ convOf rows e.src = convOf rows e.dst
        ∧ ∃ ta tb, tsOf rows e.src = some ta ∧ tsOf rows e.dst = some tb ∧ ta ≤ tb) := by
  constructor
  · intro c hc
    rw [filter_replyEdges rows hnd c hc]
    constructor
    · rfl
    · unfold replyEdgesOf consecPairs
      rw [List.length_map, List.length_zip, List.length_tail]
      rw [show (convSorted rows c).length = (convRows rows c).length from
        (List.perm_insertionSort _ _).length_eq]
      omega
  · intro e he
    unfold replyEdges at he
    obtain ⟨c', -, hec⟩ := List.mem_flatMap.mp he
    obtain ⟨hw, hty, hsrc, hdst, ta, tb, hta, htb, htab⟩ := mem_replyEdgesOf rows hnd c' e hec
    exact ⟨hw, hty, by rw [hsrc, hdst], ta, tb, hta, htb, htab⟩

/-- C6 witness: a two-message conversation (ids 0, 1). -/
theorem build_reply_edges_structure_witness :
    (([GRow.mk 0 "c" "a", GRow.mk 1 "c" "b"].map (fun r => r.msg)).Nodup)
    ∧ ((∀ c ∈ convIds [GRow.mk 0 "c" "a", GRow.mk 1 "c" "b"],
        (replyEdges [GRow.mk 0 "c" "a", GRow.mk 1 "c" "b"]).filter
            (fun e => convOf [GRow.mk 0 "c" "a", GRow.mk 1 "c" "b"] e.src = some c)
            = (consecPairs (convSorted [GRow.mk 0 "c" "a", GRow.mk 1 "c" "b"] c)).map
                (fun p => GEdge.mk p.1.msg p.2.msg 2 "reply")
          ∧ ((replyEdges [GRow.mk 0 "c" "a", GRow.mk 1 "c" "b"]).filter
              (fun e => convOf [GRow.mk 0 "c" "a", GRow.mk 1 "c" "b"] e.src = some c)).length
            = (convRows [GRow.mk 0 "c" "a", GRow.mk 1 "c" "b"] c).length - 1)
      ∧ (∀ e ∈ replyEdges [GRow.mk 0 "c" "a", GRow.mk 1 "c" "b"], e.w = 2 ∧ e.type = "reply"
          ∧ convOf [GRow.mk 0 "c" "a", GRow.mk 1 "c" "b"] e.src
            = convOf [GRow.mk 0 "c" "a", GRow.mk 1 "c" "b"] e.dst
          ∧ ∃ ta tb, tsOf [GRow.mk 0 "c" "a", GRow.mk 1 "c" "b"] e.src = some ta
            ∧ tsOf [GRow.mk 0 "c" "a", GRow.mk 1 "c" "b"] e.dst = some tb ∧ ta ≤ tb)) :=
  ⟨by decide, build_reply_edges_structure _ (by decide)⟩

/-! ### Theorems: mini personalized PageRank (C1) -/

lemma idxOf_ne_none (cand : List ℤ) (m : ℤ) (j : ℕ) (h : idxOf cand m = some j) :
    cand ≠ [] := by
  intro hc
  subst hc
  simp [idxOf] at h

/-- C1 counterexample: with the candidate list `[0]`, the single edge `(2, 3)`
outside the candidate set and all-zero seeds, `_mini_ppr` returns the all-zero
vector, while the claimed computation — iterate `r = 0.2*v + 0.8*A*r` exactly
20 times from the uniform fallback seed vector, with no early exit — returns
`0.2`: the code exits early instead of iterating. -/
theorem miniPPR_early_exit_counterexample :
    miniPPR (K := ℚ) [0] [(2, 3, 1)] (fun _ => 0) (1/5) 20
      ≠ pprSpec (K := ℚ) [0] [(2, 3, 1)] (fun _ => 0) (1/5) 20 := by
  have hres : pprRestricted (K := ℚ) [0] [(2, 3, 1)] = [] := rfl
  have hlhs : miniPPR (K := ℚ) [0] [(2, 3, 1)] (fun _ => 0) (1/5) 20
      = [((0 : ℤ), (0 : ℚ))] := by
    unfold miniPPR
    rw [if_neg (by simp), if_pos (Or.inl hres)]
    rfl
  have hv : pprSpecVec (K := ℚ) [0] (fun _ => 0) = [1] := by
    unfold pprSpecVec
    rw [if_pos (by simp)]
    norm_num
  have hconst : ∀ r : List ℚ,
      pprStepVec 1 (pprNormVals (pprRestricted (K := ℚ) [0] [(2, 3, 1)])) (1/5) [1] r
        = [1/5] := by
    intro r
    rw [hres]
    show List.zipWith _ [(1 : ℚ)] (pprApplyA 1 [] r) = _
    have happ : pprApplyA (K := ℚ) 1 [] r = [0] := by
      unfold pprApplyA
      simp [List.range_succ]
    rw [happ]
    show [(1 : ℚ)/5 * 1 + (1 - 1/5) * 0] = [1/5]
    norm_num
  have hiter : ∀ n : ℕ,
      (pprStepVec 1 (pprNormVals (pprRestricted (K := ℚ) [0] [(2, 3, 1)])) (1/5) [1])^[n+1] [1]
        = [1/5] := by
    intro n
    induction n with
    | zero => simpa using hconst [1]
    | succ k ih =>
      rw [Function.iterate_succ_apply']
      rw [ih]
      exact hconst [1/5]
  have hrhs : pprSpec (K := ℚ) [0] [(2, 3, 1)] (fun _ => 0) (1/5) 20
      = [((0 : ℤ), (1 : ℚ)/5)] := by
    unfold pprSpec pprIterate
    rw [hv]
    simp only [List.length_singleton]
    rw [show (20 : ℕ) = 19 + 1 from rfl, hiter 19]
    rfl
  rw [hlhs, hrhs]
  intro hcon
  rw [List.cons.injEq, Prod.mk.injEq] at hcon
  exact absurd hcon.1.2 (by norm_num)

/-- C1 (amended).  Whenever at least one edge has both endpoints in the
candidate set and the collected restricted weights do not sum to zero (and the
seed weights are nonnegative, as the fusion pipeline guarantees), `_mini_ppr`
restricts to in-candidate edges, column-normalizes with default divisor 1,
normalizes the seed vector (uniform fallback when all seeds are zero), and
applies the step `r = alpha*v + (1-alpha)*(scatter)` exactly 20 times from
`r = v` — where the scatter keeps, per destination, only the last-listed
restricted edge's contribution (`Ar[A[0]] += A[2]*r[A[1]]` does not accumulate
duplicate indices), and so equals the claimed `A*r` only on restricted graphs
of in-degree at most one.  Outside those conditions the function returns the
all-zero vector without iterating. -/
theorem miniPPR_eq_spec_of_restricted_nonzero {K : Type} [LinearOrderedField K]
    (cand : List ℤ) (edges : List (ℤ × ℤ × K)) (seeds : ℤ → K) (alpha : K) (iters : ℕ)
    (hseeds : ∀ m ∈ cand, 0 ≤ seeds m)
    (hres : pprRestricted cand edges ≠ [])
    (hw : ((pprRestricted cand edges).map (fun t => t.2.2)).sum ≠ 0) :
    miniPPR cand edges seeds alpha iters = pprSpec cand edges seeds alpha iters := by
  obtain ⟨t, ht⟩ := List.exists_mem_of_ne_nil _ hres
  obtain ⟨e, he, hmatch⟩ := List.mem_filterMap.mp ht
  have hcand : cand ≠ [] := by
    rcases hj : idxOf cand e.1 with - | j
    · rw [hj] at hmatch
      simp at hmatch
    · exact idxOf_ne_none cand e.1 j hj
  have hedges : edges ≠ [] := List.ne_nil_of_mem he
  have hv : (if (cand.map (fun m => max 0 (seeds m))).sum ≤ 0 then
        List.replicate cand.length ((cand.length : K))⁻¹
      else (cand.map (fun m => max 0 (seeds m))).map
        (fun x => x / (cand.map (fun m => max 0 (seeds m))).sum))
      = pprSpecVec cand seeds := by
    have hmapeq : cand.map (fun m => max 0 (seeds m)) = cand.map seeds :=
      List.map_congr_left (fun m hm => max_eq_right (hseeds m hm))
    unfold pprSpecVec
    by_cases hz : ∀ m ∈ cand, seeds m = 0
    · have hsum : (cand.map (fun m => max 0 (seeds m))).sum = 0 := by
        rw [hmapeq]
        exact List.sum_eq_zero (fun x hx => by
          obtain ⟨m, hm, rfl⟩ := List.mem_map.mp hx
          exact hz m hm)
      rw [if_pos (le_of_eq hsum), if_pos hz]
    · rw [if_neg hz]
      push_neg at hz
      obtain ⟨m0, hm0, hm0ne⟩ := hz
      have hm0pos : 0 < seeds m0 := lt_of_le_of_ne (hseeds m0 hm0) (Ne.symm hm0ne)
      have hsumpos : 0 < (cand.map (fun m => max 0 (seeds m))).sum := by
        rw [hmapeq]
        have hmem : seeds m0 ∈ cand.map seeds := List.mem_map.mpr ⟨m0, hm0, rfl⟩
        have hle : seeds m0 ≤ (cand.map seeds).sum := by
          apply List.single_le_sum _ _ hmem
          intro x hx
          obtain ⟨m, hm, rfl⟩ := List.mem_map.mp hx
          exact hseeds m hm
        linarith
      rw [if_neg (not_le.mpr hsumpos), hmapeq]
  unfold miniPPR pprSpec
  rw [if_neg (by
      intro hor
      rcases hor with h | h
      · exact hcand h
      · exact hedges h),
    if_neg (by
      intro hor
      rcases hor with h | h
      · exact hres h
      · exact hw h),
    hv]

/-- C1 witness for the amended theorem: candidates `[0, 1]` with the internal
edge `(0, 1)` of weight 1 and unit seeds satisfy all three hypotheses, and the
code equals the claimed iteration there. -/
theorem miniPPR_eq_spec_of_restricted_nonzero_witness :
    ((∀ m ∈ ([0, 1] : List ℤ), 0 ≤ (fun _ : ℤ => (1 : ℚ)) m)
      ∧ pprRestricted (K := ℚ) [0, 1] [(0, 1, 1)] ≠ []
      ∧ ((pprRestricted (K := ℚ) [0, 1] [(0, 1, 1)]).map (fun t => t.2.2)).sum ≠ 0)
    ∧ miniPPR (K := ℚ) [0, 1] [(0, 1, 1)] (fun _ => 1) (1/5) 20
      = pprSpec (K := ℚ) [0, 1] [(0, 1, 1)] (fun _ => 1) (1/5) 20 :=
  ⟨⟨by decide, by decide,
      by rw [show pprRestricted (K := ℚ) [0, 1] [(0, 1, 1)] = [(1, 0, 1)] from rfl]; norm_num⟩,
    miniPPR_eq_spec_of_restricted_nonzero [0, 1] [(0, 1, 1)] (fun _ => 1) (1/5) 20
      (by decide) (by decide)
      (by rw [show pprRestricted (K := ℚ) [0, 1] [(0, 1, 1)] = [(1, 0, 1)] from rfl]; norm_num)⟩

/-! ### Theorems: hybrid fusion formula (C2) -/

lemma getScore_nil (i : ℤ) : getScore [] i = 0 := rfl

lemma zNormVal_nil_scores (ids : List ℤ) (i : ℤ) : zNormVal ids (getScore []) i = 0 := by
  have harr : ids.map (getScore []) = List.replicate ids.length 0 := by
    rw [List.map_congr_left (fun j _ => getScore_nil j)]
    exact List.map_const' ids 0
  have hsum : (List.replicate ids.length (0 : ℝ)).sum = 0 := by simp
  have hmu : zMu ids (getScore []) = 0 := by
    unfold zMu
    rw [harr, hsum, zero_div]
  have hsd : zSd ids (getScore []) = 0 := by
    unfold zSd
    rw [harr, hmu]
    have hsq : (List.replicate ids.length (0 : ℝ)).map (fun x => (x - 0) ^ 2)
        = List.replicate ids.length 0 := by
      rw [List.map_replicate]
      norm_num
    rw [hsq, hsum, zero_div, Real.sqrt_zero]
  unfold zNormVal
  rw [if_pos (by rw [hsd]; norm_num)]

/-- C2.  Every record returned by `hybrid_search` carries the fused score
`1.00·z(bm25) + 0.55·z(cosine) + 0.20·prior + 0.10·freshness + 0.20·z(global)
+ 0.25·z(mini_ppr)`, where each `z` is `_z_norm` over the candidate set
(collapsing to 0 when the signal's standard deviation is below `1e-9`,
in particular for an absent signal) and
`prior = 0.30·[role=assistant] + 0.40·[has_code] + 0.30·min(len(snippet),800)/800`. -/
theorem hybrid_fused_score_formula (bm cos prG : List (ℤ × ℝ)) (edges : List (ℤ × ℤ × ℝ))
    (meta : ℤ → HMeta) (fresh : ℤ → ℝ) (topk : ℕ) (rec : ℤ × ℝ)
    (hrec : rec ∈ hybridSearch bm cos prG edges meta fresh topk) :
    rec.2 = 1.00 * zNormVal (hybridCands bm cos) (getScore bm) rec.1
      + 0.55 * zNormVal (hybridCands bm cos) (getScore cos) rec.1
      + 0.20 * ((if (meta rec.1).role.toLower = "assistant" then 0.30 else 0)
          + (if (meta rec.1).hasCode then 0.40 else 0)
          + 0.30 * (min ((meta rec.1).snippet.length) 800 : ℝ) / 800)
      + 0.10 * fresh rec.1
      + 0.20 * zNormVal (hybridCands bm cos) (getScore prG) rec.1
      + 0.25 * zNormVal (hybridCands bm cos) (hybridPPRRaw bm cos edges) rec.1 := by
  unfold hybridSearch at hrec
  by_cases hcands : hybridCands bm cos = []
  · rw [if_pos hcands] at hrec
    exact absurd hrec (List.not_mem_nil rec)
  · rw [if_neg hcands] at hrec
    obtain ⟨i, -, rfl⟩ := List.mem_map.mp hrec
    show hybridFused bm cos prG edges meta fresh i = _
    unfold hybridFused
    have hc2 : (if cos = [] then 0 else zNormVal (hybridCands bm cos) (getScore cos) i)
        = zNormVal (hybridCands bm cos) (getScore cos) i := by
      by_cases hcos : cos = []
      · rw [if_pos hcos, hcos, zNormVal_nil_scores]
      · rw [if_neg hcos]
    have hp2 : (if prG = [] then 0 else zNormVal (hybridCands bm cos) (getScore prG) i)
        = zNormVal (hybridCands bm cos) (getScore prG) i := by
      by_cases hprG : prG = []
      · rw [if_pos hprG, hprG, zNormVal_nil_scores]
      · rw [if_neg hprG]
    rw [hc2, hp2]
    rfl

/-- C2 witness: a single lexical candidate (id 5, bm25 score 2) with assistant
role, no code, empty snippet, no semantic/global/graph signal and zero
freshness; its fused score is carried on the returned record and satisfies the
formula (all z-signals collapse for a single candidate). -/
theorem hybrid_fused_score_formula_witness :
    (((5 : ℤ), hybridFused [(5, 2)] [] [] []
        (fun _ => ⟨"assistant", false, ""⟩) (fun _ => 0) 5)
      ∈ hybridSearch [(5, 2)] [] [] [] (fun _ => ⟨"assistant", false, ""⟩) (fun _ => 0) 10)
    ∧ hybridFused [(5, 2)] [] [] [] (fun _ => ⟨"assistant", false, ""⟩) (fun _ => 0) 5
      = 1.00 * zNormVal (hybridCands [(5, 2)] []) (getScore [(5, 2)]) 5
        + 0.55 * zNormVal (hybridCands [(5, 2)] []) (getScore []) 5
        + 0.20 * ((if ((fun _ : ℤ => (⟨"assistant", false, ""⟩ : HMeta)) 5).role.toLower
              = "assistant" then 0.30 else 0)
            + (if ((fun _ : ℤ => (⟨"assistant", false, ""⟩ : HMeta)) 5).hasCode then 0.40 else 0)
            + 0.30 * (min (((fun _ : ℤ => (⟨"assistant", false, ""⟩ : HMeta)) 5).snippet.length)
                800 : ℝ) / 800)
        + 0.10 * (fun _ : ℤ => (0 : ℝ)) 5
        + 0.20 * zNormVal (hybridCands [(5, 2)] []) (getScore []) 5
        + 0.25 * zNormVal (hybridCands [(5, 2)] [])
            (hybridPPRRaw [(5, 2)] [] []) 5 := by
  have hmem : ((5 : ℤ), hybridFused [(5, 2)] [] [] []
      (fun _ => ⟨"assistant", false, ""⟩) (fun _ => 0) 5)
      ∈ hybridSearch [(5, 2)] [] [] [] (fun _ => ⟨"assistant", false, ""⟩) (fun _ => 0) 10 := by
    unfold hybridSearch
    rw [if_neg (by decide)]
    exact List.mem_singleton.mpr rfl
  exact ⟨hmem, hybrid_fused_score_formula [(5, 2)] [] [] []
    (fun _ => ⟨"assistant", false, ""⟩) (fun _ => 0) 10 _ hmem⟩

/-! ### Theorems: global PageRank convergence (C3)

The networkx power iteration with damping `a = 0.85` contracts the l1
distance of successive iterates by a factor `a` per step (the normalized
rows are substochastic and the dangling mass is redistributed through the
personalization distribution), so the error after 98 steps is below
`2 * 0.85^98 < 1e-6 <= N * tol` and the tolerance test fires within the
100-iteration budget: `PowerIterationFailedConvergence` is unreachable. -/

lemma pgStep_point_sub (n : ℕ) (M : Fin n → Fin n → ℚ) (dang : Finset (Fin n)) (alpha : ℚ)
    (p x y : Fin n → ℚ) (i : Fin n) :
    pgStep n M dang alpha p x i - pgStep n M dang alpha p y i
      = alpha * ((∑ j, (x j - y j) * M j i) + (∑ j ∈ dang, (x j - y j)) * p i) := by
  unfold pgStep
  have h1 : (∑ j, (x j - y j) * M j i) = (∑ j, x j * M j i) - ∑ j, y j * M j i := by
    rw [← Finset.sum_sub_distrib]
    exact Finset.sum_congr rfl (fun j _ => by ring)
  have h2 : (∑ j ∈ dang, (x j - y j)) = (∑ j ∈ dang, x j) - ∑ j ∈ dang, y j :=
    Finset.sum_sub_distrib
  rw [h1, h2]
  ring

lemma pgStep_contraction (n : ℕ) (M : Fin n → Fin n → ℚ) (dang : Finset (Fin n)) (alpha : ℚ)
    (p : Fin n → ℚ) (hM0 : ∀ j i, 0 ≤ M j i)
    (hrow1 : ∀ j, j ∉ dang → ∑ i, M j i = 1)
    (hrow0 : ∀ j, j ∈ dang → ∀ i, M j i = 0)
    (hp0 : ∀ i, 0 ≤ p i) (hp1 : ∑ i, p i = 1) (ha : 0 ≤ alpha) (x y : Fin n → ℚ) :
    l1dist n (pgStep n M dang alpha p x) (pgStep n M dang alpha p y)
      ≤ alpha * l1dist n x y := by
  unfold l1dist
  have hterm : ∀ i, |pgStep n M dang alpha p x i - pgStep n M dang alpha p y i|
      ≤ alpha * ((∑ j, |x j - y j| * M j i) + (∑ j ∈ dang, |x j - y j|) * p i) := by
    intro i
    rw [pgStep_point_sub]
    rw [abs_mul, abs_of_nonneg ha]
    apply mul_le_mul_of_nonneg_left _ ha
    refine le_trans (abs_add _ _) (add_le_add ?_ ?_)
    · refine le_trans (Finset.abs_sum_le_sum_abs _ _) ?_
      apply Finset.sum_le_sum
      intro j _
      rw [abs_mul, abs_of_nonneg (hM0 j i)]
    · rw [abs_mul, abs_of_nonneg (hp0 i)]
      exact mul_le_mul_of_nonneg_right (Finset.abs_sum_le_sum_abs _ _) (hp0 i)
  refine le_trans (Finset.sum_le_sum (fun i _ => hterm i)) ?_
  rw [← Finset.mul_sum]
  apply mul_le_mul_of_nonneg_left _ ha
  rw [Finset.sum_add_distrib, ← Finset.mul_sum, hp1, mul_one]
  rw [Finset.sum_comm]
  have hrows : ∀ j, (∑ i, |x j - y j| * M j i) = |x j - y j| * ∑ i, M j i := by
    intro j
    rw [Finset.mul_sum]
  rw [Finset.sum_congr rfl (fun j _ => hrows j)]
  rw [← Finset.sum_add_sum_compl dang (fun j => |x j - y j| * ∑ i, M j i)]
  have hdangpart : (∑ j ∈ dang, |x j - y j| * ∑ i, M j i) = 0 := by
    apply Finset.sum_eq_zero
    intro j hj
    rw [Finset.sum_congr rfl (fun i _ => hrow0 j hj i), Finset.sum_const, smul_zero, mul_zero]
  have hfreepart : (∑ j ∈ dangᶜ, |x j - y j| * ∑ i, M j i) = ∑ j ∈ dangᶜ, |x j - y j| := by
    apply Finset.sum_congr rfl
    intro j hj
    rw [hrow1 j (Finset.mem_compl.mp hj), mul_one]
  rw [hdangpart, hfreepart, zero_add]
  rw [← Finset.sum_add_sum_compl dang (fun j => |x j - y j|)]
  linarith [Finset.sum_le_sum (fun (j : Fin n) (_ : j ∈ dangᶜ) => le_refl |x j - y j|)]

lemma pgStep_preserves (n : ℕ) (M : Fin n → Fin n → ℚ) (dang : Finset (Fin n)) (alpha : ℚ)
    (p : Fin n → ℚ) (hM0 : ∀ j i, 0 ≤ M j i)
    (hrow1 : ∀ j, j ∉ dang → ∑ i, M j i = 1)
    (hrow0 : ∀ j, j ∈ dang → ∀ i, M j i = 0)
    (hp0 : ∀ i, 0 ≤ p i) (hp1 : ∑ i, p i = 1) (ha : 0 ≤ alpha) (ha1 : alpha ≤ 1)
    (x : Fin n → ℚ) (hx0 : ∀ i, 0 ≤ x i) (hx1 : ∑ i, x i = 1) :
    (∀ i, 0 ≤ pgStep n M dang alpha p x i) ∧ (∑ i, pgStep n M dang alpha p x i) = 1 := by
  constructor
  · intro i
    unfold pgStep
    have h1 : 0 ≤ ∑ j, x j * M j i :=
      Finset.sum_nonneg (fun j _ => mul_nonneg (hx0 j) (hM0 j i))
    have h2 : 0 ≤ (∑ j ∈ dang, x j) * p i :=
      mul_nonneg (Finset.sum_nonneg (fun j _ => hx0 j)) (hp0 i)
    have h3 : 0 ≤ (1 - alpha) * p i := mul_nonneg (by linarith) (hp0 i)
    positivity
  · unfold pgStep
    rw [Finset.sum_add_distrib, ← Finset.mul_sum, ← Finset.mul_sum, hp1, mul_one]
    rw [Finset.sum_add_distrib, ← Finset.mul_sum, hp1, mul_one]
    rw [Finset.sum_comm]
    have hrows : ∀ j, (∑ i, x j * M j i) = x j * ∑ i, M j i := fun j => by
      rw [Finset.mul_sum]
    rw [Finset.sum_congr rfl (fun j _ => hrows j)]
    rw [← Finset.sum_add_sum_compl dang (fun j => x j * ∑ i, M j i)]
    have hdangpart : (∑ j ∈ dang, x j * ∑ i, M j i) = 0 := by
      apply Finset.sum_eq_zero
      intro j hj
      rw [Finset.sum_congr rfl (fun i _ => hrow0 j hj i), Finset.sum_const, smul_zero, mul_zero]
    have hfreepart : (∑ j ∈ dangᶜ, x j * ∑ i, M j i) = ∑ j ∈ dangᶜ, x j := by
      apply Finset.sum_congr rfl
      intro j hj
      rw [hrow1 j (Finset.mem_compl.mp hj), mul_one]
    rw [hdangpart, hfreepart, zero_add]
    have hsplit : (∑ j ∈ dangᶜ, x j) + ∑ j ∈ dang, x j = 1 := by
      rw [add_comm, Finset.sum_add_sum_compl dang x]
      exact hx1
    rw [hsplit]
    ring

lemma l1dist_le_two (n : ℕ) (x y : Fin n → ℚ)
    (hx0 : ∀ i, 0 ≤ x i) (hx1 : ∑ i, x i = 1)
    (hy0 : ∀ i, 0 ≤ y i) (hy1 : ∑ i, y i = 1) : l1dist n x y ≤ 2 := by
  unfold l1dist
  have hterm : ∀ i : Fin n, |x i - y i| ≤ x i + y i := by
    intro i
    refine le_trans (abs_sub _ _) ?_
    rw [abs_of_nonneg (hx0 i), abs_of_nonneg (hy0 i)]
  refine le_trans (Finset.sum_le_sum (fun i _ => hterm i)) ?_
  rw [Finset.sum_add_distrib, hx1, hy1]
  norm_num

lemma pgLoop_isSome_of_err (n : ℕ) (step : (Fin n → ℚ) → Fin n → ℚ) (bound : ℚ) :
    ∀ (fuel : ℕ) (x : Fin n → ℚ),
      (∃ j, j < fuel ∧ l1dist n (step^[j+1] x) (step^[j] x) < bound) →
      (pgLoop n step bound fuel x).isSome = true := by
  intro fuel
  induction fuel with
  | zero =>
    intro x hex
    obtain ⟨j, hj, -⟩ := hex
    omega
  | succ f ih =>
    intro x hex
    obtain ⟨j, hj, herr⟩ := hex
    rw [pgLoop]
    by_cases hstop : l1dist n (step x) x < bound
    · rw [if_pos hstop]
      rfl
    · rw [if_neg hstop]
      apply ih
      cases j with
      | zero =>
        rw [Function.iterate_one, Function.iterate_zero_apply] at herr
        exact absurd herr hstop
      | succ j' =>
        refine ⟨j', by omega, ?_⟩
        rw [← Function.iterate_succ_apply, ← Function.iterate_succ_apply]
        exact herr

lemma pgIter_distribution (n : ℕ) (M : Fin n → Fin n → ℚ) (dang : Finset (Fin n)) (alpha : ℚ)
    (p : Fin n → ℚ) (hM0 : ∀ j i, 0 ≤ M j i)
    (hrow1 : ∀ j, j ∉ dang → ∑ i, M j i = 1)
    (hrow0 : ∀ j, j ∈ dang → ∀ i, M j i = 0)
    (hp0 : ∀ i, 0 ≤ p i) (hp1 : ∑ i, p i = 1) (ha : 0 ≤ alpha) (ha1 : alpha ≤ 1)
    (x0 : Fin n → ℚ) (hx0 : ∀ i, 0 ≤ x0 i) (hx1 : ∑ i, x0 i = 1) :
    ∀ k, (∀ i, 0 ≤ (pgStep n M dang alpha p)^[k] x0 i)
      ∧ (∑ i, (pgStep n M dang alpha p)^[k] x0 i) = 1 := by
  intro k
  induction k with
  | zero => exact ⟨hx0, hx1⟩
  | succ k ih =>
    rw [Function.iterate_succ_apply']
    exact pgStep_preserves n M dang alpha p hM0 hrow1 hrow0 hp0 hp1 ha ha1 _ ih.1 ih.2

lemma pgIter_err_bound (n : ℕ) (M : Fin n → Fin n → ℚ) (dang : Finset (Fin n)) (alpha : ℚ)
    (p : Fin n → ℚ) (hM0 : ∀ j i, 0 ≤ M j i)
    (hrow1 : ∀ j, j ∉ dang → ∑ i, M j i = 1)
    (hrow0 : ∀ j, j ∈ dang → ∀ i, M j i = 0)
    (hp0 : ∀ i, 0 ≤ p i) (hp1 : ∑ i, p i = 1) (ha : 0 ≤ alpha) (ha1 : alpha ≤ 1)
    (x0 : Fin n → ℚ) (hx0 : ∀ i, 0 ≤ x0 i) (hx1 : ∑ i, x0 i = 1) :
    ∀ k, l1dist n ((pgStep n M dang alpha p)^[k+1] x0) ((pgStep n M dang alpha p)^[k] x0)
      ≤ 2 * alpha ^ k := by
  intro k
  induction k with
  | zero =>
    rw [Function.iterate_one, Function.iterate_zero_apply, pow_zero, mul_one]
    have h1 := pgIter_distribution n M dang alpha p hM0 hrow1 hrow0 hp0 hp1 ha ha1 x0 hx0 hx1 1
    rw [Function.iterate_one] at h1
    exact l1dist_le_two n _ _ h1.1 h1.2 hx0 hx1
  | succ k ih =>
    rw [Function.iterate_succ_apply, Function.iterate_succ_apply]
    have hsucc : ∀ m : ℕ, (pgStep n M dang alpha p)^[m] (pgStep n M dang alpha p x0)
        = (pgStep n M dang alpha p)^[m+1] x0 := by
      intro m
      rw [Function.iterate_succ_apply]
    calc l1dist n ((pgStep n M dang alpha p)^[k+1] (pgStep n M dang alpha p x0))
          ((pgStep n M dang alpha p)^[k] (pgStep n M dang alpha p x0))
        = l1dist n ((pgStep n M dang alpha p) ((pgStep n M dang alpha p)^[k+1] x0))
            ((pgStep n M dang alpha p) ((pgStep n M dang alpha p)^[k] x0)) := by
          rw [hsucc, hsucc, Function.iterate_succ_apply', Function.iterate_succ_apply']
      _ ≤ alpha * l1dist n ((pgStep n M dang alpha p)^[k+1] x0)
            ((pgStep n M dang alpha p)^[k] x0) :=
          pgStep_contraction n M dang alpha p hM0 hrow1 hrow0 hp0 hp1 ha _ _
      _ ≤ alpha * (2 * alpha ^ k) := mul_le_mul_of_nonneg_left ih ha
      _ = 2 * alpha ^ (k + 1) := by ring

lemma pg_tolerance_bound (n : ℕ) (hn : 1 ≤ n) :
    2 * ((17 : ℚ)/20) ^ 98 < (n : ℚ)/1000000 := by
  have h1 : 2 * ((17 : ℚ)/20) ^ 98 < 1/1000000 := by norm_num
  have h2 : (1 : ℚ) ≤ (n : ℚ) := by exact_mod_cast hn
  have h3 : (1 : ℚ)/1000000 ≤ (n : ℚ)/1000000 := by linarith
  linarith

/-- The networkx power iteration with damping 0.85 always reaches the
tolerance `N * 1e-6` within its 100-iteration budget, for every row-normalized
matrix, dangling set and personalization distribution over at least one
node. -/
lemma pgLoop_converges (n : ℕ) (hn : 1 ≤ n) (M : Fin n → Fin n → ℚ)
    (dang : Finset (Fin n)) (p : Fin n → ℚ) (hM0 : ∀ j i, 0 ≤ M j i)
    (hrow1 : ∀ j, j ∉ dang → ∑ i, M j i = 1)
    (hrow0 : ∀ j, j ∈ dang → ∀ i, M j i = 0)
    (hp0 : ∀ i, 0 ≤ p i) (hp1 : ∑ i, p i = 1) :
    (pgLoop n (pgStep n M dang (17/20) p) ((n : ℚ)/1000000) 100
      (fun _ => ((n : ℚ))⁻¹)).isSome = true := by
  have hnq : (n : ℚ) ≠ 0 := by
    have : n ≠ 0 := by omega
    exact_mod_cast this
  have hx0 : ∀ i : Fin n, 0 ≤ ((n : ℚ))⁻¹ := fun _ => by positivity
  have hx1 : (∑ _i : Fin n, ((n : ℚ))⁻¹) = 1 := by
    rw [Finset.sum_const, Finset.card_univ, Fintype.card_fin, nsmul_eq_mul,
      mul_inv_cancel₀ hnq]
  apply pgLoop_isSome_of_err
  refine ⟨98, by omega, ?_⟩
  have hbound := pgIter_err_bound n M dang (17/20) p hM0 hrow1 hrow0 hp0 hp1
    (by norm_num) (by norm_num) (fun _ => ((n : ℚ))⁻¹) hx0 hx1 98
  exact lt_of_le_of_lt hbound (pg_tolerance_bound n hn)

lemma lastWeight_nonneg (edges : List (ℤ × ℤ × ℚ)) (hw : ∀ e ∈ edges, 0 ≤ e.2.2)
    (s d : ℤ) : 0 ≤ lastWeight edges s d := by
  unfold lastWeight
  cases hfind : edges.reverse.find? (fun e => e.1 = s ∧ e.2.1 = d) with
  | none => simp
  | some e =>
    have he : e ∈ edges := List.mem_reverse.mp (List.mem_of_find?_eq_some hfind)
    simpa using hw e he

lemma prM_nonneg (edges : List (ℤ × ℤ × ℚ)) (hw : ∀ e ∈ edges, 0 ≤ e.2.2)
    (j i : Fin (prN edges)) : 0 ≤ prM edges j i := by
  unfold prM
  by_cases hS : prRowSum edges j = 0
  · rw [if_pos hS]
  · rw [if_neg hS]
    have hA : 0 ≤ prMatA edges j i := lastWeight_nonneg edges hw _ _
    have hSnn : 0 ≤ prRowSum edges j :=
      Finset.sum_nonneg (fun i _ => lastWeight_nonneg edges hw _ _)
    exact div_nonneg hA hSnn

lemma prM_row_one (edges : List (ℤ × ℤ × ℚ)) (j : Fin (prN edges))
    (hj : j ∉ prDang edges) : ∑ i, prM edges j i = 1 := by
  have hS : prRowSum edges j ≠ 0 := by
    intro h0
    exact hj (Finset.mem_filter.mpr ⟨Finset.mem_univ j, h0⟩)
  unfold prM
  rw [Finset.sum_congr rfl (fun i _ => if_neg hS)]
  rw [← Finset.sum_div]
  exact div_self hS

lemma prM_row_zero (edges : List (ℤ × ℤ × ℚ)) (j : Fin (prN edges))
    (hj : j ∈ prDang edges) (i : Fin (prN edges)) : prM edges j i = 0 := by
  have hS : prRowSum edges j = 0 := (Finset.mem_filter.mp hj).2
  unfold prM
  rw [if_pos hS]

lemma prBoost_pos (m : PRMeta) (h : 0 ≤ m.rb) : 0 < prBoost m := by
  unfold prBoost
  split_ifs <;> linarith

lemma prS_pos (meta : List PRMeta) (hrb : ∀ m ∈ meta, 0 ≤ m.rb) : 0 < prS meta := by
  unfold prS
  split_ifs with h
  · norm_num
  · have hnn : 0 ≤ (meta.map prBoost).sum := by
      apply List.sum_nonneg
      intro x hx
      obtain ⟨m, hm, rfl⟩ := List.mem_map.mp hx
      exact le_of_lt (prBoost_pos m (hrb m hm))
    exact lt_of_le_of_ne hnn (Ne.symm h)

lemma prPvec_nonneg (edges : List (ℤ × ℤ × ℚ)) (meta : List PRMeta)
    (hrb : ∀ m ∈ meta, 0 ≤ m.rb) (i : Fin (prN edges)) : 0 ≤ prPvec edges meta i := by
  unfold prPvec
  cases hfind : meta.reverse.find? (fun e => e.msg = (prNodes edges).get i) with
  | none =>
    rw [Option.map_none', Option.getD_none, zero_div]
  | some e =>
    have he : e ∈ meta := List.mem_reverse.mp (List.mem_of_find?_eq_some hfind)
    have hb := prBoost_pos e (hrb e he)
    have hs := prS_pos meta hrb
    show 0 ≤ prBoost e / prS meta
    positivity

/-- C3 counterexample: a nonempty edge file (one edge `0 -> 1`, weight 2) with
an empty metadata mapping makes the personalization restricted to graph nodes
sum to zero, and `networkx.pagerank` raises `ZeroDivisionError`: the build does
not terminate normally with a score mapping for every edge file and metadata
input. -/
theorem buildPagerank_empty_personalization_error :
    buildPagerank [(0, 1, 2)] [] (3/20) = Except.error PRError.zeroDivision := by
  have h0 : prPsum [(0, 1, 2)] [] = 0 := by
    unfold prPsum
    apply Finset.sum_eq_zero
    intro i _
    unfold prPvec
    exact zero_div _
  unfold buildPagerank
  rw [if_neg (by decide), if_pos h0]

/-- C3 (amended).  For every edge file with nonnegative weights and every
metadata mapping with nonnegative recency boosts, provided the graph is empty
or some metadata entry is a graph node (otherwise `ZeroDivisionError` is
raised, see the counterexample), `build_pagerank` at the default
`alpha = 0.15` terminates normally with a score mapping: the damping-0.85
power iteration always meets its tolerance within the fixed 100-iteration
budget, so `PowerIterationFailedConvergence` is never raised. -/
theorem buildPagerank_ok_of_meta_node (edges : List (ℤ × ℤ × ℚ)) (meta : List PRMeta)
    (hw : ∀ e ∈ edges, 0 ≤ e.2.2) (hrb : ∀ m ∈ meta, 0 ≤ m.rb)
    (hmeta : prNodes edges = [] ∨ ∃ m ∈ meta, m.msg ∈ prNodes edges) :
    (buildPagerank edges meta (3/20)).isOk = true := by
  unfold buildPagerank
  by_cases hn : prN edges = 0
  · rw [if_pos hn]
    rfl
  · rw [if_neg hn]
    have hpsumpos : 0 < prPsum edges meta := by
      rcases hmeta with hnil | ⟨m, hm, hmem⟩
      · exact absurd (by rw [prN, hnil]; rfl) hn
      · obtain ⟨i, hi⟩ := List.mem_iff_get.mp hmem
        have hposi : 0 < prPvec edges meta i := by
          unfold prPvec
          have hsome : (meta.reverse.find?
              (fun e => e.msg = (prNodes edges).get i)).isSome = true := by
            rw [List.find?_isSome]
            refine ⟨m, List.mem_reverse.mpr hm, by rw [decide_eq_true_eq]; exact hi.symm⟩
          obtain ⟨e, he⟩ := Option.isSome_iff_exists.mp hsome
          rw [he]
          have hemem : e ∈ meta := List.mem_reverse.mp (List.mem_of_find?_eq_some he)
          have hb := prBoost_pos e (hrb e hemem)
          have hs := prS_pos meta hrb
          show 0 < prBoost e / prS meta
          positivity
        have hle : prPvec edges meta i ≤ prPsum edges meta := by
          unfold prPsum
          exact Finset.single_le_sum (fun j _ => prPvec_nonneg edges meta hrb j)
            (Finset.mem_univ i)
        linarith
    rw [if_neg (ne_of_gt hpsumpos)]
    have hp0 : ∀ i, 0 ≤ prPvec edges meta i / prPsum edges meta :=
      fun i => div_nonneg (prPvec_nonneg edges meta hrb i) (le_of_lt hpsumpos)
    have hp1 : (∑ i, prPvec edges meta i / prPsum edges meta) = 1 := by
      rw [← Finset.sum_div]
      exact div_self (ne_of_gt hpsumpos)
    have hloop := pgLoop_converges (prN edges) (by omega) (prM edges) (prDang edges)
      (fun i => prPvec edges meta i / prPsum edges meta)
      (prM_nonneg edges hw) (prM_row_one edges) (prM_row_zero edges) hp0 hp1
    obtain ⟨y, hy⟩ := Option.isSome_iff_exists.mp hloop
    rw [show (1 - max 0 (min ((3 : ℚ)/20) 1)) = 17/20 from by norm_num, hy]
    rfl

/-- C3 witness for the amended theorem: one edge `0 -> 1` of weight 2 and one
metadata row for message 0 (zero recency boost, plain user row): the build
returns a score mapping. -/
theorem buildPagerank_ok_of_meta_node_witness :
    ((∀ e ∈ ([((0 : ℤ), (1 : ℤ), (2 : ℚ))] : List (ℤ × ℤ × ℚ)), 0 ≤ e.2.2)
      ∧ (∀ m ∈ [PRMeta.mk 0 0 false false], 0 ≤ m.rb)
      ∧ (prNodes [((0 : ℤ), (1 : ℤ), (2 : ℚ))] = []
        ∨ ∃ m ∈ [PRMeta.mk 0 0 false false], m.msg ∈ prNodes [((0 : ℤ), (1 : ℤ), (2 : ℚ))]))
    ∧ (buildPagerank [((0 : ℤ), (1 : ℤ), (2 : ℚ))] [PRMeta.mk 0 0 false false] (3/20)).isOk
      = true :=
  ⟨⟨by decide, by decide, Or.inr ⟨PRMeta.mk 0 0 false false, by decide, by decide⟩⟩,
    buildPagerank_ok_of_meta_node [((0 : ℤ), (1 : ℤ), (2 : ℚ))] [PRMeta.mk 0 0 false false]
      (by decide) (by decide) (Or.inr ⟨PRMeta.mk 0 0 false false, by decide, by decide⟩)⟩

end Lexica
